import Mathlib

/-
Verification development for the SpritePx pixel-art editor core
(`editor.store.ts` and the flood-fill routine of `editor-page.ts`).

Modelling conventions:
- a `Uint32Array` frame buffer is a `List ℕ` whose entries are the stored
  32-bit values; a JS store `arr[i] = v` coerces `v` to `v % 2^32`, and an
  out-of-range store is ignored, exactly like `List.set`;
- JS numbers used as coordinates are `ℤ` (they may be negative), sizes and
  linear indices are `ℕ`, fractional inputs (`Math.floor` call sites) are `ℚ`;
- a JS `Set<number>` is a `Finset ℕ`; iteration over such a set in this
  program always happens in ascending insertion order, which coincides with
  ascending numeric order for every mask the program builds, so iteration is
  modelled by `Finset.sort (· ≤ ·)`;
- the imperative pixel loops are modelled as the list of (index, value)
  stores they perform, executed left to right by `applyWrites`;
- UI-only state (theme, zoom, fps, onion skin, advisory messages, the
  imported source image) is omitted: no claim mentions it.
-/

namespace SpritePx

/-- Number of distinct 32-bit values: a `Uint32Array` stores values mod `U32`. -/
def U32 : ℕ := 2 ^ 32

/-- A packed 0xAARRGGBB pixel as stored in a frame buffer. -/
abbrev Pixel := ℕ

/-- A frame buffer (`Uint32Array` of length `w * h`, row-major). -/
abbrev Frame := List Pixel

/-- Alpha channel of a pixel: JS `(c >>> 24) & 0xff` (the `>>>` first coerces
to a 32-bit value). -/
def alphaOf (c : Pixel) : ℕ := ((c % U32) >>> 24) &&& 0xff

/-- Source `makeFrame`: a `w*h` buffer filled with `fill`. -/
def makeFrame (w h : ℕ) (fill : Pixel) : Frame := List.replicate (w * h) fill

/-- Run a sequence of `arr[i] = v` stores left to right. -/
def applyWrites (f : Frame) (ws : List (ℕ × Pixel)) : Frame :=
  ws.foldl (fun acc iv => acc.set iv.1 iv.2) f

/-- The pairs `(i, j)` produced by the nested loop
`for i in [0,m) { for j in [0,n) { ... } }`, in loop order. -/
def loopPairs (m n : ℕ) : List (ℕ × ℕ) :=
  (List.range m).flatMap (fun i => (List.range n).map (fun j => (i, j)))

/-- Iteration order of a JS `Set<number>` mask (ascending, see header note). -/
def maskList (m : Finset ℕ) : List ℕ := m.sort (· ≤ ·)

/-- The five tools of the editor (`Tool` union type). -/
inductive Tool where
  | pencil | eraser | picker | fill | lasso
deriving DecidableEq

/-- An `UndoSnapshot`: deep copy of all frames plus the active index. -/
structure Snapshot where
  frames : List Frame
  active : ℕ
deriving DecidableEq

/-- The internal clipboard (`ClipboardData`). -/
structure Clipboard where
  w : ℕ
  h : ℕ
  pixels : Frame
deriving DecidableEq

/-- The `EditorStore` state relevant to the core raster model: canvas
configuration, frames, undo stack, selection, move transaction, clipboard
and the recent-colors palette. -/
structure Store where
  w : ℕ
  h : ℕ
  tool : Tool
  color : ℕ
  brushRadius : ℕ
  frames : List Frame
  active : ℕ
  undoStack : List Snapshot
  selectionPath : Option (List (ℤ × ℤ))
  selectionMask : Option (Finset ℕ)
  isSelecting : Bool
  moving : Bool
  moveStart : Option (ℤ × ℤ)
  moveDx : ℤ
  moveDy : ℤ
  floatingPixels : Option (List (ℕ × ℕ))
  baseWhileMoving : Option Frame
  clipboard : Option Clipboard
  recentColors : List ℕ

/-- The initial signal values of `EditorStore` (32×32 canvas, one blank
frame, pencil tool, opaque black, empty history). -/
def initStore : Store where
  w := 32
  h := 32
  tool := Tool.pencil
  color := 0xff000000
  brushRadius := 0
  frames := [makeFrame 32 32 0]
  active := 0
  undoStack := []
  selectionPath := none
  selectionMask := none
  isSelecting := false
  moving := false
  moveStart := none
  moveDx := 0
  moveDy := 0
  floatingPixels := none
  baseWhileMoving := none
  clipboard := none
  recentColors := [0xff000000]

/-- Source `maxUndo = 60`. -/
def maxUndo : ℕ := 60

/-- Source `pushUndo`: snapshot all frames and the active index, append, and
drop the oldest snapshot when the depth exceeds `maxUndo`. -/
def pushUndo (st : Store) : Store :=
  let snap : Snapshot := ⟨st.frames, st.active⟩
  let s := st.undoStack ++ [snap]
  { st with undoStack := if maxUndo < s.length then s.tail else s }

/-- Source `stopMoving`. -/
def stopMoving (st : Store) : Store :=
  { st with moving := false, moveStart := none, moveDx := 0, moveDy := 0,
            floatingPixels := none, baseWhileMoving := none }

/-- Source `clearSelection` (which also calls `stopMoving`). -/
def clearSelection (st : Store) : Store :=
  stopMoving { st with selectionPath := none, selectionMask := none, isSelecting := false }

/-- Source `undo`: pop the most recent snapshot, restore frames (deep copy)
and the active index clamped to the restored frame count, clear selection.
Note it does not restore the configured `w`/`h`. -/
def undo (st : Store) : Store :=
  match st.undoStack.getLast? with
  | none => st
  | some snap =>
      clearSelection { st with undoStack := st.undoStack.dropLast,
                               frames := snap.frames,
                               active := min snap.active (snap.frames.length - 1) }

/-- Source `replaceActiveFrame`. -/
def replaceActiveFrame (st : Store) (newFrame : Frame) : Store :=
  { st with frames := st.frames.set st.active newFrame }

/-- Source `setBrushRadius`: `Math.max(0, Math.min(20, Math.floor(r)))`. -/
def setBrushRadius (st : Store) (r : ℚ) : Store :=
  { st with brushRadius := (max 0 (min 20 ⌊r⌋)).toNat }

/-- Source `incBrushRadius`. -/
def incBrushRadius (st : Store) : Store :=
  setBrushRadius st ((st.brushRadius : ℚ) + 1)

/-- Source `decBrushRadius`. -/
def decBrushRadius (st : Store) : Store :=
  setBrushRadius st ((st.brushRadius : ℚ) - 1)

/-- Source `pushRecentColorUsado`: skip fully transparent colors, move to
front, de-duplicate, cap at 20. -/
def pushRecentColorUsado (list : List ℕ) (color : ℕ) : List ℕ :=
  if alphaOf color = 0 then list
  else (color :: list.filter (fun c => c ≠ color)).take 20

/-- The stores performed by the `stamp` double loop over the `(2r+1)²`
square centered at `(x, y)`, skipping out-of-bounds cells (`oy` is the outer
loop, running over `-r .. r` as `p.1 - r`). -/
def stampWrites (w h : ℕ) (x y : ℤ) (r : ℕ) (color : ℕ) : List (ℕ × Pixel) :=
  (loopPairs (2 * r + 1) (2 * r + 1)).filterMap (fun p =>
    let ny : ℤ := y + ((p.1 : ℤ) - (r : ℤ))
    let nx : ℤ := x + ((p.2 : ℤ) - (r : ℤ))
    if 0 ≤ nx ∧ 0 ≤ ny ∧ nx < (w : ℤ) ∧ ny < (h : ℤ) then
      some (ny.toNat * w + nx.toNat, color % U32)
    else none)

/-- Source `stamp`: write `color` over the brush square of the active frame,
then register the color as recently used when the active tool is the pencil. -/
def stamp (st : Store) (x y : ℤ) (color : ℕ) : Store :=
  let frame := st.frames.getD st.active []
  let out := applyWrites frame (stampWrites st.w st.h x y st.brushRadius color)
  let st1 := replaceActiveFrame st out
  if st1.tool = Tool.pencil then
    { st1 with recentColors := pushRecentColorUsado st1.recentColors color }
  else st1

/-- Source `startLasso`. -/
def startLasso (st : Store) (x y : ℤ) : Store :=
  { st with selectionPath := some [(x, y)], selectionMask := none, isSelecting := true }

/-- Source `pushLassoPoint`. -/
def pushLassoPoint (st : Store) (x y : ℤ) : Store :=
  match st.selectionPath with
  | none => st
  | some path => { st with selectionPath := some (path ++ [(x, y)]) }

/-- Source `pointInPolygon`: ray-casting parity test. Edge `i` joins vertex
`j = (i + n - 1) % n` to vertex `i`; the JS floating-point division is
modelled by exact rational division. -/
def pointInPolygon (x y : ℚ) (poly : List (ℤ × ℤ)) : Bool :=
  let n := poly.length
  (List.range n).foldl (fun inside i =>
    let pi := poly.getD i (0, 0)
    let pj := poly.getD ((i + n - 1) % n) (0, 0)
    let xi : ℚ := pi.1
    let yi : ℚ := pi.2
    let xj : ℚ := pj.1
    let yj : ℚ := pj.2
    let intersect := ((yi > y) ≠ (yj > y)) ∧ x < (xj - xi) * (y - yi) / (yj - yi) + xi
    if intersect then !inside else inside) false

/-- The mask rasterized by the `finishLasso` double loop: every canvas pixel
`(x, y)` (as linear index `y*w + x`) passing the point-in-polygon test. -/
def lassoMask (w h : ℕ) (path : List (ℤ × ℤ)) : Finset ℕ :=
  (Finset.range (w * h)).filter (fun j => pointInPolygon ((j % w : ℕ) : ℚ) ((j / w : ℕ) : ℚ) path)

/-- Source `finishLasso`: fewer than 3 vertices (or no path) clears the
selection; otherwise rasterize, storing `null` for an empty mask. -/
def finishLasso (st : Store) : Store :=
  match st.selectionPath with
  | none => clearSelection st
  | some path =>
      if path.length < 3 then clearSelection st
      else
        let mask := lassoMask st.w st.h path
        { st with selectionMask := if mask.Nonempty then some mask else none,
                  isSelecting := false }

/-- Source `startMoveSelection`: no-op without a non-empty mask; otherwise
push undo, zero the masked pixels into `base`, and lift their original
values into the floating map. -/
def startMoveSelection (st : Store) (startX startY : ℤ) : Store :=
  match st.selectionMask with
  | none => st
  | some mask =>
      if mask = ∅ then st
      else
        let st := pushUndo st
        let frame := st.frames.getD st.active []
        let base := applyWrites frame ((maskList mask).map (fun idx => (idx, 0)))
        let floatMap := (maskList mask).map (fun idx => (idx, frame.getD idx 0))
        { st with baseWhileMoving := some base, floatingPixels := some floatMap,
                  moving := true, moveStart := some (startX, startY),
                  moveDx := 0, moveDy := 0 }

/-- Source `updateMoveSelection`. -/
def updateMoveSelection (st : Store) (currX currY : ℤ) : Store :=
  if st.moving = false then st
  else
    match st.moveStart with
    | none => st
    | some start => { st with moveDx := currX - start.1, moveDy := currY - start.2 }

/-- The stores performed by the `endMoveSelection` loop over the floating
map: each floating pixel lands at its translated position when in bounds. -/
def endMoveWrites (w h : ℕ) (dx dy : ℤ) (floatMap : List (ℕ × ℕ)) : List (ℕ × Pixel) :=
  floatMap.filterMap (fun ic =>
    let ox := ic.1 % w
    let oy := ic.1 / w
    let nx : ℤ := (ox : ℤ) + dx
    let ny : ℤ := (oy : ℤ) + dy
    if 0 ≤ nx ∧ 0 ≤ ny ∧ nx < (w : ℤ) ∧ ny < (h : ℤ) then
      some (ny.toNat * w + nx.toNat, ic.2)
    else none)

/-- Source `endMoveSelection`: overlay the floating pixels onto `base`,
commit, and make the set of indices actually written the new mask
(`null` when empty). -/
def endMoveSelection (st : Store) : Store :=
  if st.moving = false then st
  else
    match st.baseWhileMoving, st.floatingPixels, st.selectionMask with
    | some base, some floatMap, some _mask =>
        let ws := endMoveWrites st.w st.h st.moveDx st.moveDy floatMap
        let out := applyWrites base ws
        let newMask := (ws.map Prod.fst).toFinset
        stopMoving { (replaceActiveFrame st out) with
                     selectionMask := if newMask.Nonempty then some newMask else none }
    | _, _, _ => stopMoving st

/-- Minimum x coordinate over a non-empty mask (`boundsFromMask`). -/
def maskMinX (mask : Finset ℕ) (w : ℕ) (hm : mask.Nonempty) : ℕ :=
  (mask.image (fun idx => idx % w)).min' (hm.image _)

/-- Minimum y coordinate over a non-empty mask (`boundsFromMask`). -/
def maskMinY (mask : Finset ℕ) (w : ℕ) (hm : mask.Nonempty) : ℕ :=
  (mask.image (fun idx => idx / w)).min' (hm.image _)

/-- Maximum x coordinate over a non-empty mask (`boundsFromMask`). -/
def maskMaxX (mask : Finset ℕ) (w : ℕ) (hm : mask.Nonempty) : ℕ :=
  (mask.image (fun idx => idx % w)).max' (hm.image _)

/-- Maximum y coordinate over a non-empty mask (`boundsFromMask`). -/
def maskMaxY (mask : Finset ℕ) (w : ℕ) (hm : mask.Nonempty) : ℕ :=
  (mask.image (fun idx => idx / w)).max' (hm.image _)

/-- Source `copySelection`: no-op without a non-empty mask; otherwise store
the bounding box of the mask in the clipboard, masked pixels at their
box-local positions, everything else transparent. -/
def copySelection (st : Store) : Store :=
  match st.selectionMask with
  | none => st
  | some mask =>
      if hm : mask = ∅ then st
      else
        have hne : mask.Nonempty := Finset.nonempty_iff_ne_empty.mpr hm
        let frame := st.frames.getD st.active []
        let minX := maskMinX mask st.w hne
        let minY := maskMinY mask st.w hne
        let maxX := maskMaxX mask st.w hne
        let maxY := maskMaxY mask st.w hne
        let cw := maxX - minX + 1
        let ch := maxY - minY + 1
        let pixels := applyWrites (makeFrame cw ch 0)
          ((maskList mask).map (fun idx =>
            ((idx / st.w - minY) * cw + (idx % st.w - minX), frame.getD idx 0)))
        { st with clipboard := some ⟨cw, ch, pixels⟩ }

/-- The stores performed by the `pasteClipboard` double loop: clipboard
pixels with non-zero alpha, placed at `(atX + x, atY + y)` when in bounds. -/
def pasteWrites (w h : ℕ) (atX atY : ℤ) (clip : Clipboard) : List (ℕ × Pixel) :=
  (loopPairs clip.h clip.w).filterMap (fun p =>
    let col := clip.pixels.getD (p.1 * clip.w + p.2) 0
    if alphaOf col = 0 then none
    else
      let nx : ℤ := atX + (p.2 : ℤ)
      let ny : ℤ := atY + (p.1 : ℤ)
      if 0 ≤ nx ∧ 0 ≤ ny ∧ nx < (w : ℤ) ∧ ny < (h : ℤ) then
        some (ny.toNat * w + nx.toNat, col)
      else none)

/-- Source `pasteClipboard`: push undo, overlay the clipboard at the given
offset, and make the set of indices actually written the new mask. -/
def pasteClipboard (st : Store) (atX atY : ℤ) : Store :=
  match st.clipboard with
  | none => st
  | some clip =>
      let st := pushUndo st
      let frame := st.frames.getD st.active []
      let ws := pasteWrites st.w st.h atX atY clip
      let out := applyWrites frame ws
      let newMask := (ws.map Prod.fst).toFinset
      { (replaceActiveFrame st out) with
        selectionMask := if newMask.Nonempty then some newMask else none }

/-- Source `deleteFrame`: refuse when at most one frame; otherwise push undo,
remove the active frame and step the active index back (never below 0). -/
def deleteFrame (st : Store) : Store :=
  if st.frames.length ≤ 1 then st
  else
    let st1 := pushUndo st
    let idx := st1.active
    clearSelection { st1 with frames := st1.frames.eraseIdx idx,
                              active := (max 0 ((idx : ℤ) - 1)).toNat }

/-- The stores performed by the `setCanvasSize` per-frame copy loop: every
old pixel with non-zero alpha, shifted by `(offX, offY)` when in bounds
(`y` is the outer loop). -/
def resizeWrites (fr : Frame) (oldW oldH w h : ℕ) (offX offY : ℤ) : List (ℕ × Pixel) :=
  (loopPairs oldH oldW).filterMap (fun p =>
    let col := fr.getD (p.1 * oldW + p.2) 0
    if alphaOf col = 0 then none
    else
      let nx : ℤ := (p.2 : ℤ) + offX
      let ny : ℤ := (p.1 : ℤ) + offY
      if 0 ≤ nx ∧ 0 ≤ ny ∧ nx < (w : ℤ) ∧ ny < (h : ℤ) then
        some (ny.toNat * w + nx.toNat, col)
      else none)

/-- One frame reflowed to the new size, content shifted by `(offX, offY)`
over a transparent background. -/
def resizeFrame (fr : Frame) (oldW oldH w h : ℕ) (offX offY : ℤ) : Frame :=
  applyWrites (makeFrame w h 0) (resizeWrites fr oldW oldH w h offX offY)

/-- Source `setCanvasSize`: clamp to `[8, 512]`, no-op when unchanged,
push undo, reflow every frame centered (`offset = Math.floor((new-old)/2)`,
a floor division, possibly negative), update `w`/`h`, clear selection. -/
def setCanvasSize (st : Store) (newW newH : ℚ) : Store :=
  let w : ℤ := max 8 (min 512 ⌊newW⌋)
  let h : ℤ := max 8 (min 512 ⌊newH⌋)
  if w = (st.w : ℤ) ∧ h = (st.h : ℤ) then st
  else
    let st1 := pushUndo st
    let oldW := st1.w
    let oldH := st1.h
    let offX := Int.fdiv (w - (oldW : ℤ)) 2
    let offY := Int.fdiv (h - (oldH : ℤ)) 2
    let wn := w.toNat
    let hn := h.toNat
    let resized := st1.frames.map (fun fr => resizeFrame fr oldW oldH wn hn offX offY)
    clearSelection { st1 with frames := resized, w := wn, h := hn }

/-- Neighbor pushes of the flood-fill loop body. The JS worklist is an array
used as a stack (`push`/`pop` at the end); it is modelled with the list head
as the top of the stack, so the four conditional pushes cons in source
order and the last push `(x, y+1)` ends up on top, matching JS pop order. -/
def pushNbrs (x y w h : ℕ) (q : List (ℕ × ℕ)) : List (ℕ × ℕ) :=
  let q1 := if 0 < x then (x - 1, y) :: q else q
  let q2 := if x < w - 1 then (x + 1, y) :: q1 else q1
  let q3 := if 0 < y then (x, y - 1) :: q2 else q2
  if y < h - 1 then (x, y + 1) :: q3 else q3

/-- The `while (q.length)` loop of `floodFill`, with explicit fuel (the JS
loop has no bound; `floodFill` below supplies fuel that provably suffices).
Pop a cell; skip it unless it still reads `oldC`; otherwise recolor it and
push its in-bounds neighbors. -/
def fillLoop (w h oldC newC : ℕ) : ℕ → Frame → List (ℕ × ℕ) → Frame
  | _, out, [] => out
  | 0, out, _ :: _ => out
  | fuel + 1, out, (x, y) :: q =>
      let idx := y * w + x
      if out.getD idx 0 ≠ oldC then fillLoop w h oldC newC fuel out q
      else fillLoop w h oldC newC fuel (out.set idx (newC % U32)) (pushNbrs x y w h q)

/-- Source `floodFill` (editor-page): no-op when the start point is out of
bounds or the start pixel already equals `newColor`; otherwise run the
worklist loop from the start cell. -/
def floodFill (x0 y0 : ℤ) (frame : Frame) (w h : ℕ) (newColor : ℕ) : Frame :=
  if x0 < 0 ∨ y0 < 0 ∨ (w : ℤ) ≤ x0 ∨ (h : ℤ) ≤ y0 then frame
  else
    let xn := x0.toNat
    let yn := y0.toNat
    let oldColor := frame.getD (yn * w + xn) 0
    if oldColor = newColor then frame
    else fillLoop w h oldColor newColor (5 * (w * h) + 2) frame [(xn, yn)]

/-- 4-adjacency of two cells (the four flood-fill neighbor offsets). -/
def fillAdj (p q : ℕ × ℕ) : Prop :=
  (q.1 = p.1 + 1 ∧ q.2 = p.2) ∨ (p.1 = q.1 + 1 ∧ q.2 = p.2) ∨
  (q.2 = p.2 + 1 ∧ q.1 = p.1) ∨ (p.2 = q.2 + 1 ∧ q.1 = p.1)

/-- One step of connectivity in the region to fill: move to an adjacent
in-bounds cell whose original value is the captured start color. -/
def fillStep (F : Frame) (w h oldC : ℕ) (p q : ℕ × ℕ) : Prop :=
  fillAdj p q ∧ q.1 < w ∧ q.2 < h ∧ F.getD (q.2 * w + q.1) 0 = oldC

/-- The 4-connected component of the start cell among cells whose value
equals the captured start color. -/
def fillComp (F : Frame) (w h oldC : ℕ) (s₀ p : ℕ × ℕ) : Prop :=
  Relation.ReflTransGen (fillStep F w h oldC) s₀ p

/-- Number of cells of the buffer still holding the old color (the
termination measure of the flood-fill loop, scaled in the proofs). -/
def countOld (oldC : ℕ) (w h : ℕ) (out : Frame) : ℕ :=
  ((Finset.range (w * h)).filter (fun j => out.getD j 0 = oldC)).card

/-- Invariant of the flood-fill worklist loop. `F` is the original buffer,
`out` the current buffer, `q` the worklist. -/
structure FillInv (F : Frame) (w h oldC newC : ℕ) (s₀ : ℕ × ℕ)
    (out : Frame) (q : List (ℕ × ℕ)) : Prop where
  len : out.length = w * h
  keep : ∀ x, x < w → ∀ y, y < h → F.getD (y * w + x) 0 ≠ oldC →
    out.getD (y * w + x) 0 = F.getD (y * w + x) 0
  sound : ∀ x, x < w → ∀ y, y < h → F.getD (y * w + x) 0 = oldC →
    out.getD (y * w + x) 0 = oldC ∨
      (out.getD (y * w + x) 0 = newC ∧ fillComp F w h oldC s₀ (x, y))
  start : out.getD (s₀.2 * w + s₀.1) 0 = newC ∨ s₀ ∈ q
  frontier : ∀ x, x < w → ∀ y, y < h → F.getD (y * w + x) 0 = oldC →
    out.getD (y * w + x) 0 = newC →
    ∀ p, fillStep F w h oldC (x, y) p → out.getD (p.2 * w + p.1) 0 = newC ∨ p ∈ q
  inq : ∀ e ∈ q, e.1 < w ∧ e.2 < h ∧
    (F.getD (e.2 * w + e.1) 0 = oldC → fillComp F w h oldC s₀ e)

/-- Membership of cell `(jx, jy)` in the brush square of side `2r+1`
centered at `(x, y)`, clipped to canvas bounds. -/
def inStampSquare (w h : ℕ) (x y : ℤ) (r : ℕ) (jx jy : ℕ) : Prop :=
  jx < w ∧ jy < h ∧
  x - r ≤ (jx : ℤ) ∧ (jx : ℤ) ≤ x + r ∧ y - r ≤ (jy : ℤ) ∧ (jy : ℤ) ≤ y + r

/-- The set of indices a move-commit actually writes: each mask index whose
cell, translated by `(dx, dy)`, stays inside the `w × h` canvas, mapped to
its translated linear index. -/
def translateMask (m : Finset ℕ) (w h : ℕ) (dx dy : ℤ) : Finset ℕ :=
  (m.filter (fun i =>
    0 ≤ ((i % w : ℕ) : ℤ) + dx ∧ ((i % w : ℕ) : ℤ) + dx < (w : ℤ) ∧
    0 ≤ ((i / w : ℕ) : ℤ) + dy ∧ ((i / w : ℕ) : ℤ) + dy < (h : ℤ))).image
    (fun i => (((i / w : ℕ) : ℤ) + dy).toNat * w + (((i % w : ℕ) : ℤ) + dx).toNat)

/-- The clipboard value `copySelection` builds for mask `m` on frame `F`:
the mask's bounding box, masked pixels at box-local positions, everything
else transparent. -/
def copyClipboard (F : Frame) (m : Finset ℕ) (w : ℕ) (hne : m.Nonempty) : Clipboard :=
  let minX := maskMinX m w hne
  let minY := maskMinY m w hne
  let cw := maskMaxX m w hne - minX + 1
  let ch := maskMaxY m w hne - minY + 1
  ⟨cw, ch, applyWrites (makeFrame cw ch 0)
    ((maskList m).map (fun idx => ((idx / w - minY) * cw + (idx % w - minX), F.getD idx 0)))⟩

/-- An 8×8 single-frame store holding one opaque pixel at cell `(2, 2)`
(linear index 18), used to exercise the resize round trip. -/
def oddResizeStore : Store :=
  { initStore with
      w := 8
      h := 8
      frames := [(makeFrame 8 8 0).set 18 0xff0000ff] }

/-! Basic buffer lemmas -/

theorem getD_set_ne {α : Type} (l : List α) (i j : ℕ) (v d : α) (h : i ≠ j) :
    (l.set i v).getD j d = l.getD j d := by
  simp [List.getD, List.getElem?_set_ne h]

theorem getD_set_self {α : Type} (l : List α) (i : ℕ) (v d : α) (h : i < l.length) :
    (l.set i v).getD i d = v := by
  simp [List.getD, List.getElem?_set_self, h]

theorem getD_eq_getElem {α : Type} (l : List α) (n : ℕ) (d : α) (h : n < l.length) :
    l.getD n d = l[n] := by
  simp [List.getD, List.getElem?_eq_getElem h]

theorem getD_eq_default {α : Type} (l : List α) (n : ℕ) (d : α) (h : l.length ≤ n) :
    l.getD n d = d := by
  simp [List.getD, List.getElem?_eq_none h]

theorem makeFrame_length (w h fill : ℕ) : (makeFrame w h fill).length = w * h := by
  simp [makeFrame]

theorem getD_makeFrame (w h fill i d : ℕ) (hi : i < w * h) :
    (makeFrame w h fill).getD i d = fill := by
  rw [getD_eq_getElem _ _ _ (by simpa [makeFrame] using hi)]
  simp [makeFrame]

theorem frame_ext {l1 l2 : Frame} (hlen : l1.length = l2.length)
    (h : ∀ j, j < l1.length → l1.getD j 0 = l2.getD j 0) : l1 = l2 := by
  refine List.ext_getElem hlen (fun i h1 h2 => ?_)
  have hh := h i h1
  rwa [getD_eq_getElem _ _ _ h1, getD_eq_getElem _ _ _ h2] at hh

/-! Lemmas about `applyWrites` -/

theorem applyWrites_nil (f : Frame) : applyWrites f [] = f := rfl

theorem applyWrites_cons (f : Frame) (iv : ℕ × Pixel) (ws : List (ℕ × Pixel)) :
    applyWrites f (iv :: ws) = applyWrites (f.set iv.1 iv.2) ws := rfl

theorem applyWrites_length (f : Frame) (ws : List (ℕ × Pixel)) :
    (applyWrites f ws).length = f.length := by
  induction ws generalizing f with
  | nil => rfl
  | cons iv ws ih => rw [applyWrites_cons, ih, List.length_set]

theorem getD_applyWrites_of_notMem (f : Frame) (ws : List (ℕ × Pixel)) (j d : ℕ)
    (h : ∀ iv ∈ ws, iv.1 ≠ j) :
    (applyWrites f ws).getD j d = f.getD j d := by
  induction ws generalizing f with
  | nil => rfl
  | cons iv ws ih =>
      rw [applyWrites_cons, ih _ (fun x hx => h x (List.mem_cons_of_mem _ hx)),
        getD_set_ne _ _ _ _ _ (h iv (List.mem_cons_self ..))]

theorem getD_applyWrites_of_mem (f : Frame) (ws : List (ℕ × Pixel)) (j v d : ℕ)
    (hnd : (ws.map Prod.fst).Nodup) (hmem : (j, v) ∈ ws) (hj : j < f.length) :
    (applyWrites f ws).getD j d = v := by
  induction ws generalizing f with
  | nil => cases hmem
  | cons iv ws ih =>
      rw [List.map_cons, List.nodup_cons] at hnd
      rcases List.mem_cons.mp hmem with h | h
      · subst h
        rw [applyWrites_cons,
          getD_applyWrites_of_notMem _ _ _ _
            (fun x hx hx' => hnd.1 (by
              have hm : x.1 ∈ ws.map Prod.fst := List.mem_map_of_mem Prod.fst hx
              rwa [hx'] at hm)),
          getD_set_self _ _ _ _ hj]
      · rw [applyWrites_cons]
        exact ih _ hnd.2 h (by rwa [List.length_set])

/-! Lemmas about `loopPairs` and index encoding -/

theorem mem_loopPairs (m n a b : ℕ) : (a, b) ∈ loopPairs m n ↔ a < m ∧ b < n := by
  simp [loopPairs]

theorem loopPairs_nodup (m n : ℕ) : (loopPairs m n).Nodup := by
  refine List.nodup_flatMap.mpr ⟨fun i _ => ?_, ?_⟩
  · exact (List.nodup_range _).map (fun a b hab => by simpa using hab)
  · refine (List.nodup_range _).imp (fun hne => ?_)
    intro l h1 h2
    simp only [List.mem_map, List.mem_range] at h1 h2
    obtain ⟨b1, _, rfl⟩ := h1
    obtain ⟨b2, _, h⟩ := h2
    exact absurd (congrArg Prod.fst h).symm hne

theorem targets_nodup {α : Type} (l : List α) (g : α → Option (ℕ × Pixel)) (hl : l.Nodup)
    (hg : ∀ a a' j v v', g a = some (j, v) → g a' = some (j, v') → a = a') :
    ((l.filterMap g).map Prod.fst).Nodup := by
  rw [List.map_filterMap]
  refine hl.filterMap (fun a a' j hj hj' => ?_)
  rw [Option.mem_def, Option.map_eq_some'] at hj hj'
  obtain ⟨⟨ja, va⟩, ha, ha'⟩ := hj
  obtain ⟨⟨jb, vb⟩, hb, hb'⟩ := hj'
  cases ha'; cases hb'
  exact hg a a' ja va vb ha hb

theorem mem_targets {α : Type} (l : List α) (g : α → Option (ℕ × Pixel)) (j : ℕ) :
    j ∈ (l.filterMap g).map Prod.fst ↔ ∃ a ∈ l, ∃ v, g a = some (j, v) := by
  rw [List.map_filterMap]
  simp only [List.mem_filterMap, Option.map_eq_some']
  constructor
  · rintro ⟨a, ha, ⟨jv, hjv, rfl⟩⟩
    exact ⟨a, ha, jv.2, by rw [hjv]⟩
  · rintro ⟨a, ha, v, hv⟩
    exact ⟨a, ha, ⟨(j, v), hv, rfl⟩⟩

theorem encode_lt {x y w h : ℕ} (hx : x < w) (hy : y < h) : y * w + x < w * h := by
  calc y * w + x < (y + 1) * w := by nlinarith
    _ ≤ h * w := Nat.mul_le_mul_right _ hy
    _ = w * h := Nat.mul_comm ..

theorem encode_inj {x y x' y' w : ℕ} (hx : x < w) (hx' : x' < w)
    (h : y * w + x = y' * w + x') : x = x' ∧ y = y' := by
  have h1 : (w * y + x) % w = x % w := Nat.mul_add_mod w y x
  have h2 : (w * y' + x') % w = x' % w := Nat.mul_add_mod w y' x'
  rw [Nat.mod_eq_of_lt hx] at h1
  rw [Nat.mod_eq_of_lt hx'] at h2
  have hx_eq : x = x' := by
    rw [← h1, ← h2, Nat.mul_comm w y, Nat.mul_comm w y', h]
  refine ⟨hx_eq, ?_⟩
  subst hx_eq
  have hmul : y * w = y' * w := by omega
  have hw : 0 < w := Nat.lt_of_le_of_lt (Nat.zero_le _) hx
  exact Nat.eq_of_mul_eq_mul_right hw hmul

theorem decode_x_lt {j w h : ℕ} (hj : j < w * h) : j % w < w := by
  rcases Nat.eq_zero_or_pos w with hw | hw
  · subst hw; simp at hj
  · exact Nat.mod_lt _ hw

theorem decode_y_lt {j w h : ℕ} (hj : j < w * h) : j / w < h := by
  rcases Nat.eq_zero_or_pos w with hw | hw
  · subst hw; simp at hj
  · exact (Nat.div_lt_iff_lt_mul hw).mpr (by rwa [Nat.mul_comm] at hj)

theorem decode_encode (j w : ℕ) : (j / w) * w + j % w = j := by
  rw [Nat.mul_comm]
  exact Nat.div_add_mod j w

/-! Lemmas about `maskList` -/

theorem maskList_nodup (m : Finset ℕ) : (maskList m).Nodup := m.sort_nodup _

theorem mem_maskList (m : Finset ℕ) (a : ℕ) : a ∈ maskList m ↔ a ∈ m := m.mem_sort _

/-! Lemmas about `pushUndo` and `undo` -/

theorem pushUndo_stack (st : Store) : (pushUndo st).undoStack =
    if maxUndo < st.undoStack.length + 1 then
      (st.undoStack ++ [Snapshot.mk st.frames st.active]).tail
    else st.undoStack ++ [Snapshot.mk st.frames st.active] := by
  simp [pushUndo]

theorem pushUndo_getLast (st : Store) :
    (pushUndo st).undoStack.getLast? = some (Snapshot.mk st.frames st.active) := by
  rw [pushUndo_stack]
  split
  next h =>
    rcases hl : st.undoStack with _ | ⟨x, xs⟩
    · rw [hl] at h; simp [maxUndo] at h
    · rw [List.cons_append, List.tail_cons, List.getLast?_concat]
  next h => rw [List.getLast?_concat]

/-- C10: the brush radius setter stores `floor(r)` clamped into `[0, 20]`,
the increment and decrement go through the same clamp, so the brush radius
stays in `[0, 20]` and every stamp square has side at most `41`. -/
theorem C10_brushRadius_clamped (st : Store) (r : ℚ) :
    (((setBrushRadius st r).brushRadius : ℤ) = max 0 (min 20 ⌊r⌋)) ∧
    (setBrushRadius st r).brushRadius ≤ 20 ∧
    (incBrushRadius st).brushRadius = min 20 (st.brushRadius + 1) ∧
    (decBrushRadius st).brushRadius = min 20 (st.brushRadius - 1) ∧
    2 * (setBrushRadius st r).brushRadius + 1 ≤ 41 := by
  have hfloor1 : ⌊(st.brushRadius : ℚ) + 1⌋ = (st.brushRadius : ℤ) + 1 := by
    rw [show ((st.brushRadius : ℚ) + 1) = (((st.brushRadius : ℤ) + 1 : ℤ) : ℚ) by push_cast; ring]
    exact Int.floor_intCast _
  have hfloor2 : ⌊(st.brushRadius : ℚ) - 1⌋ = (st.brushRadius : ℤ) - 1 := by
    rw [show ((st.brushRadius : ℚ) - 1) = (((st.brushRadius : ℤ) - 1 : ℤ) : ℚ) by push_cast; ring]
    exact Int.floor_intCast _
  refine ⟨?_, ?_, ?_, ?_, ?_⟩
  · simp only [setBrushRadius]
    exact Int.toNat_of_nonneg (le_max_left 0 _)
  · simp only [setBrushRadius]; omega
  · simp only [incBrushRadius, setBrushRadius, hfloor1]; omega
  · simp only [decBrushRadius, setBrushRadius, hfloor2]; omega
  · simp only [setBrushRadius]; omega

/-- C9: `deleteFrame` is a no-op when exactly one frame remains; otherwise it
removes the active frame and sets the active index to `max(0, oldIndex-1)`,
so the frame-count and active-index invariants still hold afterwards. -/
theorem C9_deleteFrame (st : Store) (hact : st.active < st.frames.length) :
    (st.frames.length = 1 → deleteFrame st = st) ∧
    (2 ≤ st.frames.length →
      (deleteFrame st).frames = st.frames.eraseIdx st.active ∧
      ((deleteFrame st).active : ℤ) = max 0 ((st.active : ℤ) - 1)) ∧
    (1 ≤ (deleteFrame st).frames.length ∧
      (deleteFrame st).active < (deleteFrame st).frames.length) := by
  by_cases hlen : st.frames.length ≤ 1
  · have hd : deleteFrame st = st := by simp [deleteFrame, hlen]
    exact ⟨fun _ => hd, fun h2 => absurd h2 (by omega), by rw [hd]; omega⟩
  · have hd1 : (deleteFrame st).frames = st.frames.eraseIdx st.active := by
      simp [deleteFrame, hlen, clearSelection, stopMoving, pushUndo]
    have hd2 : (deleteFrame st).active = (max 0 ((st.active : ℤ) - 1)).toNat := by
      simp [deleteFrame, hlen, clearSelection, stopMoving, pushUndo]
    have hel : (st.frames.eraseIdx st.active).length = st.frames.length - 1 := by
      rw [List.length_eraseIdx]; simp [hact]
    refine ⟨fun h1 => absurd h1 (by omega), fun _ => ⟨hd1, ?_⟩, ?_⟩
    · rw [hd2, Int.toNat_of_nonneg (le_max_left 0 _)]
    · rw [hd1, hd2, hel]; omega

/-- C9 witness: `deleteFrame` on the single-frame initial store. -/
theorem C9_deleteFrame_witness :
    initStore.active < initStore.frames.length ∧
    ((initStore.frames.length = 1 → deleteFrame initStore = initStore) ∧
     (2 ≤ initStore.frames.length →
       (deleteFrame initStore).frames = initStore.frames.eraseIdx initStore.active ∧
       ((deleteFrame initStore).active : ℤ) = max 0 ((initStore.active : ℤ) - 1)) ∧
     (1 ≤ (deleteFrame initStore).frames.length ∧
       (deleteFrame initStore).active < (deleteFrame initStore).frames.length)) :=
  ⟨by decide, C9_deleteFrame initStore (by decide)⟩

/-- C2: pushing a snapshot and undoing restores the frames pixel-for-pixel
and the active index; the undo stack never exceeds 60 snapshots, and a push
at the cap evicts the oldest snapshot (FIFO), keeping the new one. -/
theorem C2_undo_roundtrip (st : Store) :
    (st.active < st.frames.length →
      (undo (pushUndo st)).frames = st.frames ∧
      (undo (pushUndo st)).active = st.active) ∧
    (st.undoStack.length ≤ maxUndo → (pushUndo st).undoStack.length ≤ maxUndo) ∧
    (st.undoStack.length = maxUndo →
      (pushUndo st).undoStack = st.undoStack.tail ++ [Snapshot.mk st.frames st.active]) := by
  refine ⟨fun hact => ?_, fun hle => ?_, fun heq => ?_⟩
  · have hfr : (undo (pushUndo st)).frames = st.frames := by
      simp [undo, pushUndo_getLast, clearSelection, stopMoving]
    have hac : (undo (pushUndo st)).active = min st.active (st.frames.length - 1) := by
      simp [undo, pushUndo_getLast, clearSelection, stopMoving]
    exact ⟨hfr, by rw [hac]; omega⟩
  · rw [pushUndo_stack]
    simp only [maxUndo] at *
    split
    · simp only [List.length_tail, List.length_append, List.length_cons, List.length_nil]
      omega
    · simp only [List.length_append, List.length_cons, List.length_nil]
      omega
  · rw [pushUndo_stack]
    simp only [maxUndo] at *
    rw [if_pos (by omega)]
    rcases hl : st.undoStack with _ | ⟨x, xs⟩
    · rw [hl] at heq; simp at heq
    · simp

/-- C2 witness: round trip and cap bound on the initial store. -/
theorem C2_undo_roundtrip_witness :
    initStore.active < initStore.frames.length ∧
    ((undo (pushUndo initStore)).frames = initStore.frames ∧
      (undo (pushUndo initStore)).active = initStore.active) ∧
    initStore.undoStack.length ≤ maxUndo ∧
    (pushUndo initStore).undoStack.length ≤ maxUndo :=
  ⟨by decide, (C2_undo_roundtrip initStore).1 (by decide), by decide,
    (C2_undo_roundtrip initStore).2.1 (by decide)⟩

/-- C8: finishing a lasso with no path or fewer than 3 vertices clears the
selection; with 3 or more vertices the mask is the set of canvas pixels
passing the ray-casting parity test, stored as `null` when empty, and
`finishLasso` never leaves an empty-but-present mask. -/
theorem C8_finishLasso (st : Store) :
    (st.selectionPath = none →
      (finishLasso st).selectionMask = none ∧ (finishLasso st).selectionPath = none ∧
      (finishLasso st).isSelecting = false) ∧
    (∀ path, st.selectionPath = some path → path.length < 3 →
      (finishLasso st).selectionMask = none ∧ (finishLasso st).selectionPath = none ∧
      (finishLasso st).isSelecting = false) ∧
    (∀ path, st.selectionPath = some path → 3 ≤ path.length →
      (finishLasso st).selectionMask =
        (if (lassoMask st.w st.h path).Nonempty then some (lassoMask st.w st.h path) else none) ∧
      (finishLasso st).isSelecting = false) ∧
    (∀ m, (finishLasso st).selectionMask = some m → m.Nonempty) := by
  refine ⟨fun hp => ?_, fun path hp hlt => ?_, fun path hp hge => ?_, fun m hm => ?_⟩
  · simp [finishLasso, hp, clearSelection, stopMoving]
  · simp [finishLasso, hp, hlt, clearSelection, stopMoving]
  · have hlt : ¬ path.length < 3 := by omega
    simp [finishLasso, hp, hlt]
  · rcases hp : st.selectionPath with _ | path
    · simp [finishLasso, hp, clearSelection, stopMoving] at hm
    · by_cases hlt : path.length < 3
      · simp [finishLasso, hp, hlt, clearSelection, stopMoving] at hm
      · by_cases hne : (lassoMask st.w st.h path).Nonempty
        · simp [finishLasso, hp, hlt, hne] at hm
          rwa [← hm]
        · simp [finishLasso, hp, hlt, hne] at hm

/-- C8 witness: a triangular lasso on the initial store. -/
theorem C8_finishLasso_witness :
    ({ initStore with
        selectionPath := some [((0 : ℤ), (0 : ℤ)), (9, 0), (0, 9)] } : Store).selectionPath =
      some [((0 : ℤ), (0 : ℤ)), (9, 0), (0, 9)] ∧
    3 ≤ ([((0 : ℤ), (0 : ℤ)), (9, 0), (0, 9)] : List (ℤ × ℤ)).length ∧
    ((finishLasso { initStore with
        selectionPath := some [((0 : ℤ), (0 : ℤ)), (9, 0), (0, 9)] }).selectionMask =
      (if (lassoMask 32 32 [((0 : ℤ), (0 : ℤ)), (9, 0), (0, 9)]).Nonempty
       then some (lassoMask 32 32 [((0 : ℤ), (0 : ℤ)), (9, 0), (0, 9)]) else none) ∧
     (finishLasso { initStore with
        selectionPath := some [((0 : ℤ), (0 : ℤ)), (9, 0), (0, 9)] }).isSelecting = false) :=
  ⟨rfl, by decide,
    (C8_finishLasso { initStore with
      selectionPath := some [((0 : ℤ), (0 : ℤ)), (9, 0), (0, 9)] }).2.2.1
      [((0 : ℤ), (0 : ℤ)), (9, 0), (0, 9)] rfl (by decide)⟩

set_option maxRecDepth 100000 in
/-- C1: the claimed invariant — every frame buffer's length equals the
configured `w * h` after every store operation, including `undo` — fails on
the code: `undo` restores the snapshot's frame buffers but not the canvas
dimensions in force when the snapshot was taken. Resizing the initial
32×32 store to 64×64 and undoing leaves one 1024-pixel frame under a
configuration whose `w * h` is 4096. -/
theorem C1_undo_after_resize_breaks_dimensions :
    (undo (setCanvasSize initStore 64 64)).w = 64 ∧
    (undo (setCanvasSize initStore 64 64)).h = 64 ∧
    (undo (setCanvasSize initStore 64 64)).frames.length = 1 ∧
    ((undo (setCanvasSize initStore 64 64)).frames.getD 0 []).length = 1024 ∧
    ((undo (setCanvasSize initStore 64 64)).frames.getD 0 []).length ≠
      (undo (setCanvasSize initStore 64 64)).w * (undo (setCanvasSize initStore 64 64)).h := by
  decide

/-! Lemmas about `stamp` -/

theorem mem_stampWrites {w h : ℕ} {x y : ℤ} {r c j v : ℕ} :
    (j, v) ∈ stampWrites w h x y r c ↔
      v = c % U32 ∧ ∃ jx jy, inStampSquare w h x y r jx jy ∧ j = jy * w + jx := by
  unfold stampWrites
  rw [List.mem_filterMap]
  constructor
  · rintro ⟨⟨p1, p2⟩, hp, hsome⟩
    rw [mem_loopPairs] at hp
    dsimp only at hsome
    split at hsome
    next hcond =>
      obtain ⟨h1, h2, h3, h4⟩ := hcond
      rw [Option.some_inj, Prod.mk.injEq] at hsome
      obtain ⟨hj, hv⟩ := hsome
      refine ⟨hv.symm, (x + ((p2 : ℤ) - (r : ℤ))).toNat, (y + ((p1 : ℤ) - (r : ℤ))).toNat,
        ⟨?_, ?_, ?_, ?_, ?_, ?_⟩, hj.symm⟩ <;> omega
    next => exact absurd hsome (by simp)
  · rintro ⟨hv, jx, jy, ⟨hb1, hb2, hb3, hb4, hb5, hb6⟩, hj⟩
    refine ⟨(((jy : ℤ) - y + r).toNat, ((jx : ℤ) - x + r).toNat), ?_, ?_⟩
    · rw [mem_loopPairs]
      constructor <;> omega
    · dsimp only
      rw [if_pos ⟨by omega, by omega, by omega, by omega⟩, Option.some_inj, Prod.mk.injEq]
      have e1 : (y + (((((jy : ℤ) - y + r).toNat : ℕ) : ℤ) - (r : ℤ))).toNat = jy := by omega
      have e2 : (x + (((((jx : ℤ) - x + r).toNat : ℕ) : ℤ) - (r : ℤ))).toNat = jx := by omega
      exact ⟨by rw [e1, e2, hj], hv.symm⟩

theorem stampWrites_targets_nodup (w h : ℕ) (x y : ℤ) (r c : ℕ) :
    ((stampWrites w h x y r c).map Prod.fst).Nodup := by
  unfold stampWrites
  refine targets_nodup _ _ (loopPairs_nodup ..) ?_
  rintro ⟨a1, a2⟩ ⟨b1, b2⟩ j v v' ha hb
  dsimp only at ha hb
  split at ha
  next hca =>
    split at hb
    next hcb =>
      rw [Option.some_inj, Prod.mk.injEq] at ha hb
      have hj : (y + ((a1 : ℤ) - (r : ℤ))).toNat * w + (x + ((a2 : ℤ) - (r : ℤ))).toNat
          = (y + ((b1 : ℤ) - (r : ℤ))).toNat * w + (x + ((b2 : ℤ) - (r : ℤ))).toNat := by
        rw [ha.1, hb.1]
      have hxa : (x + ((a2 : ℤ) - (r : ℤ))).toNat < w := by omega
      have hxb : (x + ((b2 : ℤ) - (r : ℤ))).toNat < w := by omega
      obtain ⟨hx, hy⟩ := encode_inj hxa hxb hj
      have ha1 : a1 = b1 := by omega
      have ha2 : a2 = b2 := by omega
      rw [ha1, ha2]
    next => exact absurd hb (by simp)
  next => exact absurd ha (by simp)

theorem stamp_frames (st : Store) (x y : ℤ) (c : ℕ) :
    (stamp st x y c).frames =
      st.frames.set st.active
        (applyWrites (st.frames.getD st.active [])
          (stampWrites st.w st.h x y st.brushRadius c)) := by
  unfold stamp replaceActiveFrame
  dsimp only
  split <;> rfl

/-- C7: stamping writes the color into exactly the cells of the `2r+1`-sided
brush square clipped to canvas bounds and leaves every other cell unchanged;
for radius 0 the square is the single cell at `(x, y)`. -/
theorem C7_stamp (st : Store) (x y : ℤ) (c : ℕ)
    (hact : st.active < st.frames.length)
    (hlen : (st.frames.getD st.active []).length = st.w * st.h) :
    (∀ jx jy, inStampSquare st.w st.h x y st.brushRadius jx jy →
      ((stamp st x y c).frames.getD st.active []).getD (jy * st.w + jx) 0 = c % U32) ∧
    (∀ jx jy, jx < st.w → jy < st.h →
      ¬ inStampSquare st.w st.h x y st.brushRadius jx jy →
      ((stamp st x y c).frames.getD st.active []).getD (jy * st.w + jx) 0 =
        (st.frames.getD st.active []).getD (jy * st.w + jx) 0) ∧
    (∀ jx jy, inStampSquare st.w st.h x y 0 jx jy ↔
      (jx < st.w ∧ jy < st.h ∧ (jx : ℤ) = x ∧ (jy : ℤ) = y)) := by
  have hframes : (stamp st x y c).frames.getD st.active [] =
      applyWrites (st.frames.getD st.active [])
        (stampWrites st.w st.h x y st.brushRadius c) := by
    rw [stamp_frames]
    exact getD_set_self _ _ _ _ hact
  refine ⟨fun jx jy hin => ?_, fun jx jy hjx hjy hnin => ?_, fun jx jy => ?_⟩
  · rw [hframes]
    exact getD_applyWrites_of_mem _ _ _ _ _ (stampWrites_targets_nodup ..)
      (mem_stampWrites.mpr ⟨rfl, jx, jy, hin, rfl⟩)
      (by rw [hlen]; exact encode_lt hin.1 hin.2.1)
  · rw [hframes]
    refine getD_applyWrites_of_notMem _ _ _ _ ?_
    rintro ⟨j', v'⟩ hmem heq
    obtain ⟨hv, jx', jy', hin', hj⟩ := mem_stampWrites.mp hmem
    dsimp only at heq
    rw [heq] at hj
    obtain ⟨hx, hy⟩ := encode_inj hjx hin'.1 hj
    subst hx
    subst hy
    exact hnin hin'
  · unfold inStampSquare
    constructor
    · rintro ⟨h1, h2, h3, h4, h5, h6⟩
      exact ⟨h1, h2, by omega, by omega⟩
    · rintro ⟨h1, h2, h3, h4⟩
      exact ⟨h1, h2, by omega, by omega, by omega, by omega⟩

/-- C7 witness: a radius-0 stamp at `(1, 1)` on the initial store. -/
theorem C7_stamp_witness :
    initStore.active < initStore.frames.length ∧
    (initStore.frames.getD initStore.active []).length = initStore.w * initStore.h ∧
    (∀ jx jy, inStampSquare initStore.w initStore.h 1 1 initStore.brushRadius jx jy →
      ((stamp initStore 1 1 5).frames.getD initStore.active []).getD
        (jy * initStore.w + jx) 0 = 5 % U32) :=
  ⟨by decide, makeFrame_length 32 32 0,
    (C7_stamp initStore 1 1 5 (by decide) (makeFrame_length 32 32 0)).1⟩

/-! Lemmas about `resizeFrame` and `setCanvasSize` -/

theorem mem_resizeWrites {fr : Frame} {oldW oldH w h : ℕ} {offX offY : ℤ} {j v : ℕ} :
    (j, v) ∈ resizeWrites fr oldW oldH w h offX offY ↔
      ∃ x y, x < oldW ∧ y < oldH ∧ v = fr.getD (y * oldW + x) 0 ∧ alphaOf v ≠ 0 ∧
        0 ≤ (x : ℤ) + offX ∧ 0 ≤ (y : ℤ) + offY ∧
        (x : ℤ) + offX < w ∧ (y : ℤ) + offY < h ∧
        j = ((y : ℤ) + offY).toNat * w + ((x : ℤ) + offX).toNat := by
  unfold resizeWrites
  rw [List.mem_filterMap]
  constructor
  · rintro ⟨⟨p1, p2⟩, hp, hsome⟩
    rw [mem_loopPairs] at hp
    dsimp only at hsome
    split at hsome
    next => exact absurd hsome (by simp)
    next halpha =>
      split at hsome
      next hcond =>
        rw [Option.some_inj, Prod.mk.injEq] at hsome
        exact ⟨p2, p1, hp.2, hp.1, hsome.2.symm, by rw [← hsome.2]; exact halpha,
          hcond.1, hcond.2.1, hcond.2.2.1, hcond.2.2.2, hsome.1.symm⟩
      next => exact absurd hsome (by simp)
  · rintro ⟨x, y, hx, hy, hv, halpha, h0x, h0y, hxw, hyh, hj⟩
    refine ⟨(y, x), ?_, ?_⟩
    · rw [mem_loopPairs]; exact ⟨hy, hx⟩
    · dsimp only
      rw [if_neg (by rw [← hv]; simpa using halpha), if_pos ⟨h0x, h0y, hxw, hyh⟩,
        Option.some_inj, Prod.mk.injEq]
      exact ⟨hj.symm, hv.symm⟩

theorem resizeWrites_targets_nodup (fr : Frame) (oldW oldH w h : ℕ) (offX offY : ℤ) :
    ((resizeWrites fr oldW oldH w h offX offY).map Prod.fst).Nodup := by
  unfold resizeWrites
  refine targets_nodup _ _ (loopPairs_nodup ..) ?_
  rintro ⟨a1, a2⟩ ⟨b1, b2⟩ j v v' ha hb
  dsimp only at ha hb
  split at ha
  next => exact absurd ha (by simp)
  next =>
    split at ha
    next hca =>
      split at hb
      next => exact absurd hb (by simp)
      next =>
        split at hb
        next hcb =>
          rw [Option.some_inj, Prod.mk.injEq] at ha hb
          have hj : ((a1 : ℤ) + offY).toNat * w + ((a2 : ℤ) + offX).toNat
              = ((b1 : ℤ) + offY).toNat * w + ((b2 : ℤ) + offX).toNat := by
            rw [ha.1, hb.1]
          obtain ⟨hx, hy⟩ := encode_inj (by omega) (by omega) hj
          have e1 : a1 = b1 := by omega
          have e2 : a2 = b2 := by omega
          rw [e1, e2]
        next => exact absurd hb (by simp)
    next => exact absurd ha (by simp)

theorem resizeFrame_length (fr : Frame) (oldW oldH w h : ℕ) (offX offY : ℤ) :
    (resizeFrame fr oldW oldH w h offX offY).length = w * h := by
  unfold resizeFrame
  rw [applyWrites_length, makeFrame_length]

theorem resizeFrame_getD_hit (fr : Frame) (oldW oldH w h : ℕ) (offX offY : ℤ)
    (nx ny : ℕ) (hnx : nx < w) (hny : ny < h)
    (px py : ℕ) (hpx : px < oldW) (hpy : py < oldH)
    (hx : (px : ℤ) + offX = (nx : ℤ)) (hy : (py : ℤ) + offY = (ny : ℤ))
    (halpha : alphaOf (fr.getD (py * oldW + px) 0) ≠ 0) :
    (resizeFrame fr oldW oldH w h offX offY).getD (ny * w + nx) 0 =
      fr.getD (py * oldW + px) 0 := by
  unfold resizeFrame
  refine getD_applyWrites_of_mem _ _ _ _ _ (resizeWrites_targets_nodup ..) ?_
    (by rw [makeFrame_length]; exact encode_lt hnx hny)
  rw [mem_resizeWrites]
  exact ⟨px, py, hpx, hpy, rfl, halpha, by omega, by omega, by omega, by omega, by
    have e1 : ((py : ℤ) + offY).toNat = ny := by omega
    have e2 : ((px : ℤ) + offX).toNat = nx := by omega
    rw [e1, e2]⟩

theorem resizeFrame_getD_miss (fr : Frame) (oldW oldH w h : ℕ) (offX offY : ℤ)
    (nx ny : ℕ) (hnx : nx < w) (hny : ny < h)
    (hmiss : ∀ px py, px < oldW → py < oldH →
      (px : ℤ) + offX = (nx : ℤ) → (py : ℤ) + offY = (ny : ℤ) →
      alphaOf (fr.getD (py * oldW + px) 0) = 0) :
    (resizeFrame fr oldW oldH w h offX offY).getD (ny * w + nx) 0 = 0 := by
  unfold resizeFrame
  rw [getD_applyWrites_of_notMem _ _ _ _ ?_, getD_makeFrame _ _ _ _ _ (encode_lt hnx hny)]
  rintro ⟨j', v'⟩ hmem heq
  obtain ⟨x, y, hx, hy, hv, halpha, h0x, h0y, hxw, hyh, hj⟩ := mem_resizeWrites.mp hmem
  dsimp only at heq
  rw [heq] at hj
  obtain ⟨ex, ey⟩ := encode_inj hnx (by omega) hj
  exact halpha (by rw [hv]; exact hmiss x y hx hy (by omega) (by omega))

theorem setCanvasSize_id (st : Store)
    (hW1 : 8 ≤ st.w) (hW2 : st.w ≤ 512) (hH1 : 8 ≤ st.h) (hH2 : st.h ≤ 512) :
    setCanvasSize st (st.w : ℚ) (st.h : ℚ) = st := by
  unfold setCanvasSize
  dsimp only
  rw [Int.floor_natCast, Int.floor_natCast, if_pos ⟨by omega, by omega⟩]

theorem setCanvasSize_spec (st : Store) (W H : ℕ)
    (hW1 : 8 ≤ W) (hW2 : W ≤ 512) (hH1 : 8 ≤ H) (hH2 : H ≤ 512)
    (hne : ¬(W = st.w ∧ H = st.h)) :
    (setCanvasSize st (W : ℚ) (H : ℚ)).frames =
      st.frames.map (fun fr => resizeFrame fr st.w st.h W H
        (Int.fdiv ((W : ℤ) - st.w) 2) (Int.fdiv ((H : ℤ) - st.h) 2)) ∧
    (setCanvasSize st (W : ℚ) (H : ℚ)).w = W ∧
    (setCanvasSize st (W : ℚ) (H : ℚ)).h = H := by
  unfold setCanvasSize
  dsimp only
  have hcW : (max 8 (min 512 (W : ℤ))) = (W : ℤ) := by omega
  have hcH : (max 8 (min 512 (H : ℤ))) = (H : ℤ) := by omega
  rw [Int.floor_natCast, Int.floor_natCast, hcW, hcH, if_neg (by omega)]
  simp [clearSelection, stopMoving, pushUndo]

/-- C5 counterexample: growing an 8×8 canvas to 9×9 (an odd delta, with
`9 ≥ 8` in both axes so no clipping is claimed) and shrinking back does not
restore the frame: the up-offset is `floor(1/2) = 0` but the down-offset is
`floor(-1/2) = -1`, so content shifts by one pixel. The opaque pixel at
index 18 (cell `(2,2)`) is lost from its position. -/
theorem C5_counterexample :
    oddResizeStore.w = 8 ∧ oddResizeStore.h = 8 ∧
    (setCanvasSize (setCanvasSize oddResizeStore (9 : ℚ) (9 : ℚ)) (8 : ℚ) (8 : ℚ)).w = 8 ∧
    (setCanvasSize (setCanvasSize oddResizeStore (9 : ℚ) (9 : ℚ)) (8 : ℚ) (8 : ℚ)).h = 8 ∧
    (oddResizeStore.frames.getD 0 []).getD 18 0 = 0xff0000ff ∧
    ((setCanvasSize (setCanvasSize oddResizeStore (9 : ℚ) (9 : ℚ))
        (8 : ℚ) (8 : ℚ)).frames.getD 0 []).getD 18 0 = 0 := by
  decide

/-- C5 (amended): the resize round trip `w,h → w',h' → w,h` restores every
frame exactly when additionally both deltas are even (so the centering
offsets cancel) and every zero-alpha pixel of the frame is the zero value
(resize drops zero-alpha pixels, normalizing them to 0). -/
theorem C5_resize_roundtrip (st : Store) (W H : ℕ)
    (hw8 : 8 ≤ st.w) (hw512 : st.w ≤ 512) (hh8 : 8 ≤ st.h) (hh512 : st.h ≤ 512)
    (hW : st.w ≤ W) (hW512 : W ≤ 512) (hH : st.h ≤ H) (hH512 : H ≤ 512)
    (hevenW : (W - st.w) % 2 = 0) (hevenH : (H - st.h) % 2 = 0)
    (hframes : ∀ fr ∈ st.frames, fr.length = st.w * st.h ∧
      ∀ v ∈ fr, alphaOf v = 0 → v = 0) :
    (setCanvasSize (setCanvasSize st (W : ℚ) (H : ℚ)) (st.w : ℚ) (st.h : ℚ)).frames =
      st.frames ∧
    (setCanvasSize (setCanvasSize st (W : ℚ) (H : ℚ)) (st.w : ℚ) (st.h : ℚ)).w = st.w ∧
    (setCanvasSize (setCanvasSize st (W : ℚ) (H : ℚ)) (st.w : ℚ) (st.h : ℚ)).h = st.h := by
  by_cases hsame : W = st.w ∧ H = st.h
  · rw [hsame.1, hsame.2, setCanvasSize_id st hw8 hw512 hh8 hh512,
      setCanvasSize_id st hw8 hw512 hh8 hh512]
    exact ⟨rfl, rfl, rfl⟩
  · obtain ⟨h1f, h1w, h1h⟩ := setCanvasSize_spec st W H (by omega) hW512 (by omega) hH512 hsame
    have hne2 : ¬(st.w = (setCanvasSize st (W : ℚ) (H : ℚ)).w ∧
        st.h = (setCanvasSize st (W : ℚ) (H : ℚ)).h) := by
      rw [h1w, h1h]; omega
    obtain ⟨h2f, h2w, h2h⟩ := setCanvasSize_spec (setCanvasSize st (W : ℚ) (H : ℚ))
      st.w st.h hw8 hw512 hh8 hh512 hne2
    refine ⟨?_, by rw [h2w], by rw [h2h]⟩
    rw [h2f, h1f, h1w, h1h, List.map_map]
    have hmain : ∀ fr ∈ st.frames,
        resizeFrame (resizeFrame fr st.w st.h W H
            (Int.fdiv ((W : ℤ) - st.w) 2) (Int.fdiv ((H : ℤ) - st.h) 2))
          W H st.w st.h
          (Int.fdiv ((st.w : ℤ) - W) 2) (Int.fdiv ((st.h : ℤ) - H) 2) = fr := by
      intro fr hfr
      obtain ⟨hlen, hzero⟩ := hframes fr hfr
      -- the two offsets per axis are `k` and `-k` for `k = delta / 2`
      have hfdW1 : Int.fdiv ((W : ℤ) - st.w) 2 = ((W - st.w) / 2 : ℕ) := by
        rw [Int.fdiv_eq_ediv _ (by norm_num)]; omega
      have hfdW2 : Int.fdiv ((st.w : ℤ) - W) 2 = -((W - st.w) / 2 : ℕ) := by
        rw [Int.fdiv_eq_ediv _ (by norm_num)]; omega
      have hfdH1 : Int.fdiv ((H : ℤ) - st.h) 2 = ((H - st.h) / 2 : ℕ) := by
        rw [Int.fdiv_eq_ediv _ (by norm_num)]; omega
      have hfdH2 : Int.fdiv ((st.h : ℤ) - H) 2 = -((H - st.h) / 2 : ℕ) := by
        rw [Int.fdiv_eq_ediv _ (by norm_num)]; omega
      rw [hfdW1, hfdW2, hfdH1, hfdH2]
      set k1 : ℕ := (W - st.w) / 2 with hk1
      set k2 : ℕ := (H - st.h) / 2 with hk2
      have hk1W : st.w + k1 + k1 = W := by omega
      have hk2H : st.h + k2 + k2 = H := by omega
      refine frame_ext ?_ ?_
      · rw [resizeFrame_length, hlen]
      · intro j hj
        rw [resizeFrame_length] at hj
        have hjx : j % st.w < st.w := decode_x_lt hj
        have hjy : j / st.w < st.h := decode_y_lt hj
        set jx := j % st.w with hjxd
        set jy := j / st.w with hjyd
        have hdec : jy * st.w + jx = j := decode_encode j st.w
        rw [← hdec]
        -- value of the up-resized frame at the shifted cell
        have hup : ∀ z : ℕ, z = fr.getD (jy * st.w + jx) 0 → alphaOf z ≠ 0 →
            (resizeFrame fr st.w st.h W H (k1 : ℤ) (k2 : ℤ)).getD
              ((jy + k2) * W + (jx + k1)) 0 = fr.getD (jy * st.w + jx) 0 := by
          intro z hz ha
          exact resizeFrame_getD_hit fr st.w st.h W H k1 k2 (jx + k1) (jy + k2)
            (by omega) (by omega) jx jy hjx hjy (by push_cast; ring) (by push_cast; ring)
            (by rw [← hz]; exact ha)
        by_cases halpha : alphaOf (fr.getD (jy * st.w + jx) 0) = 0
        · -- zero-alpha source pixel: both resizes drop it, and it was 0 anyway
          have hval0 : fr.getD (jy * st.w + jx) 0 = 0 := by
            have hjlt : jy * st.w + jx < fr.length := by rw [hlen, hdec]; exact hj
            rw [getD_eq_getElem _ _ _ hjlt] at halpha ⊢
            exact hzero _ (List.getElem_mem hjlt) halpha
          rw [hval0]
          refine resizeFrame_getD_miss _ _ _ _ _ _ _ _ _ hjx hjy ?_
          intro px py hpx hpy hex hey
          have hpxe : px = jx + k1 := by omega
          have hpye : py = jy + k2 := by omega
          subst hpxe
          subst hpye
          -- the up-resized frame holds 0 there because the source pixel is transparent
          have hupmiss : (resizeFrame fr st.w st.h W H (k1 : ℤ) (k2 : ℤ)).getD
              ((jy + k2) * W + (jx + k1)) 0 = 0 := by
            refine resizeFrame_getD_miss _ _ _ _ _ _ _ _ _ (by omega) (by omega) ?_
            intro qx qy hqx hqy heqx heqy
            have hqxe : qx = jx := by omega
            have hqye : qy = jy := by omega
            subst hqxe
            subst hqye
            exact halpha
          rw [hupmiss]
          decide
        · -- opaque source pixel: it travels out and back unchanged
          have hupv := hup _ rfl halpha
          rw [resizeFrame_getD_hit _ W H st.w st.h _ _ jx jy hjx hjy
            (jx + k1) (jy + k2) (by omega) (by omega) (by push_cast; ring)
            (by push_cast; ring) (by rw [hupv]; exact halpha), hupv]
    calc st.frames.map _ = st.frames.map id := List.map_congr_left (fun fr hfr => hmain fr hfr)
      _ = st.frames := List.map_id st.frames

/-- C5 witness: an even-delta round trip 8×8 → 10×10 → 8×8 on a frame with
one opaque pixel restores the frames exactly. -/
theorem C5_resize_roundtrip_witness :
    (10 - oddResizeStore.w) % 2 = 0 ∧ (10 - oddResizeStore.h) % 2 = 0 ∧
    (∀ fr ∈ oddResizeStore.frames, fr.length = oddResizeStore.w * oddResizeStore.h ∧
      ∀ v ∈ fr, alphaOf v = 0 → v = 0) ∧
    (setCanvasSize (setCanvasSize oddResizeStore (10 : ℚ) (10 : ℚ))
      (oddResizeStore.w : ℚ) (oddResizeStore.h : ℚ)).frames = oddResizeStore.frames :=
  ⟨by decide, by decide, by decide,
    (C5_resize_roundtrip oddResizeStore 10 10 (by decide) (by decide) (by decide) (by decide)
      (by decide) (by decide) (by decide) (by decide) (by decide) (by decide) (by decide)).1⟩

/-! Lemmas about the move transaction -/

theorem encode_mod {a b w : ℕ} (hb : b < w) : (a * w + b) % w = b := by
  rw [Nat.mul_comm, Nat.mul_add_mod, Nat.mod_eq_of_lt hb]

theorem encode_div {a b w : ℕ} (hb : b < w) : (a * w + b) / w = a := by
  rcases Nat.eq_zero_or_pos w with hw | hw
  · omega
  · rw [Nat.add_comm, Nat.mul_comm, Nat.add_mul_div_left _ _ hw, Nat.div_eq_of_lt hb,
      Nat.zero_add]

theorem mem_endMoveWrites_mask {w h : ℕ} {dx dy : ℤ} {F : Frame} {m : Finset ℕ} {j v : ℕ} :
    (j, v) ∈ endMoveWrites w h dx dy ((maskList m).map (fun idx => (idx, F.getD idx 0))) ↔
      ∃ i ∈ m, v = F.getD i 0 ∧
        0 ≤ ((i % w : ℕ) : ℤ) + dx ∧ 0 ≤ ((i / w : ℕ) : ℤ) + dy ∧
        ((i % w : ℕ) : ℤ) + dx < (w : ℤ) ∧ ((i / w : ℕ) : ℤ) + dy < (h : ℤ) ∧
        j = ((((i / w : ℕ) : ℤ) + dy).toNat) * w + ((((i % w : ℕ) : ℤ) + dx).toNat) := by
  unfold endMoveWrites
  rw [List.mem_filterMap]
  constructor
  · rintro ⟨⟨i, c⟩, hic, hsome⟩
    rw [List.mem_map] at hic
    obtain ⟨idx, hidx, heq⟩ := hic
    rw [Prod.mk.injEq] at heq
    obtain ⟨rfl, rfl⟩ := heq
    dsimp only at hsome
    split at hsome
    next hcond =>
      rw [Option.some_inj, Prod.mk.injEq] at hsome
      exact ⟨idx, (mem_maskList m idx).mp hidx, hsome.2.symm,
        hcond.1, hcond.2.1, hcond.2.2.1, hcond.2.2.2, hsome.1.symm⟩
    next => exact absurd hsome (by simp)
  · rintro ⟨i, him, hv, h1, h2, h3, h4, hj⟩
    refine ⟨(i, F.getD i 0), List.mem_map_of_mem _ ((mem_maskList m i).mpr him), ?_⟩
    dsimp only
    rw [if_pos ⟨h1, h2, h3, h4⟩, Option.some_inj, Prod.mk.injEq]
    exact ⟨hj.symm, hv.symm⟩

theorem endMoveWrites_targets_nodup (w h : ℕ) (dx dy : ℤ) (F : Frame) (m : Finset ℕ) :
    ((endMoveWrites w h dx dy
        ((maskList m).map (fun idx => (idx, F.getD idx 0)))).map Prod.fst).Nodup := by
  unfold endMoveWrites
  rw [List.filterMap_map]
  refine targets_nodup _ _ (maskList_nodup m) ?_
  intro a a' j v v' ha ha'
  simp only [Function.comp] at ha ha'
  split at ha
  next hca =>
    split at ha'
    next hca' =>
      rw [Option.some_inj, Prod.mk.injEq] at ha ha'
      have hj : ((((a / w : ℕ) : ℤ) + dy).toNat) * w + ((((a % w : ℕ) : ℤ) + dx).toNat)
          = ((((a' / w : ℕ) : ℤ) + dy).toNat) * w + ((((a' % w : ℕ) : ℤ) + dx).toNat) := by
        rw [ha.1, ha'.1]
      obtain ⟨hx, hy⟩ := encode_inj (by omega) (by omega) hj
      have e1 : a % w = a' % w := by omega
      have e2 : a / w = a' / w := by omega
      have d1 := decode_encode a w
      have d2 := decode_encode a' w
      rw [← d1, ← d2, e1, e2]
    next => exact absurd ha' (by simp)
  next => exact absurd ha (by simp)

theorem endMove_targets_eq (w h : ℕ) (dx dy : ℤ) (F : Frame) (m : Finset ℕ) :
    ((endMoveWrites w h dx dy
        ((maskList m).map (fun idx => (idx, F.getD idx 0)))).map Prod.fst).toFinset =
      translateMask m w h dx dy := by
  ext j
  rw [List.mem_toFinset]
  have hiff : j ∈ ((endMoveWrites w h dx dy
      ((maskList m).map (fun idx => (idx, F.getD idx 0)))).map Prod.fst) ↔
      ∃ v, (j, v) ∈ endMoveWrites w h dx dy
        ((maskList m).map (fun idx => (idx, F.getD idx 0))) := by
    rw [List.mem_map]
    constructor
    · rintro ⟨⟨a, b⟩, hp, rfl⟩
      exact ⟨b, hp⟩
    · rintro ⟨v, hv⟩
      exact ⟨(j, v), hv, rfl⟩
  rw [hiff]
  unfold translateMask
  rw [Finset.mem_image]
  constructor
  · rintro ⟨v, hv⟩
    obtain ⟨i, him, _, h1, h2, h3, h4, hj⟩ := mem_endMoveWrites_mask.mp hv
    exact ⟨i, Finset.mem_filter.mpr ⟨him, h1, h3, h2, h4⟩, hj.symm⟩
  · rintro ⟨i, hif, hj⟩
    obtain ⟨him, h1, h3, h2, h4⟩ := Finset.mem_filter.mp hif
    exact ⟨F.getD i 0, mem_endMoveWrites_mask.mpr ⟨i, him, rfl, h1, h2, h3, h4, hj.symm⟩⟩

theorem base_getD (F : Frame) (m : Finset ℕ) (j : ℕ) (hj : j < F.length) :
    (applyWrites F ((maskList m).map (fun idx => (idx, 0)))).getD j 0 =
      if j ∈ m then 0 else F.getD j 0 := by
  by_cases hm : j ∈ m
  · rw [if_pos hm]
    refine getD_applyWrites_of_mem _ _ _ _ _ ?_ ?_ hj
    · rw [List.map_map]
      exact (maskList_nodup m).map (fun a b hab => by simpa using hab)
    · exact List.mem_map_of_mem _ ((mem_maskList m j).mpr hm)
  · rw [if_neg hm]
    refine getD_applyWrites_of_notMem _ _ _ _ ?_
    rintro ⟨j', v'⟩ hmem heq
    rw [List.mem_map] at hmem
    obtain ⟨idx, hidx, heq2⟩ := hmem
    rw [Prod.mk.injEq] at heq2
    dsimp only at heq
    exact hm (by rw [← heq, ← heq2.1]; exact (mem_maskList m idx).mp hidx)

/-- C3: committing a move with displacement `(dx, dy)` on a non-empty
in-bounds mask `M` yields the original frame with every `M`-pixel cleared
and, for every `M`-index whose translated cell is in bounds, the original
value written at the translated cell (out-of-bounds translations dropped);
the new mask is exactly the set of indices actually written, `null` when
that set is empty. -/
theorem C3_move_commit (st : Store) (sx sy dx dy : ℤ) (m : Finset ℕ)
    (hmask : st.selectionMask = some m) (hne : m.Nonempty)
    (hmb : ∀ i ∈ m, i < st.w * st.h)
    (hact : st.active < st.frames.length)
    (hlen : (st.frames.getD st.active []).length = st.w * st.h) :
    (∀ jx jy, jx < st.w → jy < st.h →
      ((endMoveSelection (updateMoveSelection (startMoveSelection st sx sy)
          (sx + dx) (sy + dy))).frames.getD st.active []).getD (jy * st.w + jx) 0 =
        if 0 ≤ (jx : ℤ) - dx ∧ (jx : ℤ) - dx < (st.w : ℤ) ∧
            0 ≤ (jy : ℤ) - dy ∧ (jy : ℤ) - dy < (st.h : ℤ) ∧
            (((jy : ℤ) - dy).toNat * st.w + ((jx : ℤ) - dx).toNat) ∈ m
        then (st.frames.getD st.active []).getD
          (((jy : ℤ) - dy).toNat * st.w + ((jx : ℤ) - dx).toNat) 0
        else if jy * st.w + jx ∈ m then 0
        else (st.frames.getD st.active []).getD (jy * st.w + jx) 0) ∧
    ((endMoveSelection (updateMoveSelection (startMoveSelection st sx sy)
        (sx + dx) (sy + dy))).selectionMask =
      if (translateMask m st.w st.h dx dy).Nonempty
      then some (translateMask m st.w st.h dx dy) else none) := by
  have hne' : ¬(m = ∅) := Finset.nonempty_iff_ne_empty.mp hne
  have h1 : startMoveSelection st sx sy =
      { pushUndo st with
          selectionMask := some m,
          baseWhileMoving := some (applyWrites (st.frames.getD st.active [])
            ((maskList m).map (fun idx => (idx, 0)))),
          floatingPixels := some ((maskList m).map
            (fun idx => (idx, (st.frames.getD st.active []).getD idx 0))),
          moving := true, moveStart := some (sx, sy), moveDx := 0, moveDy := 0 } := by
    simp only [startMoveSelection, hmask]
    rw [if_neg hne']
    simp [pushUndo, hmask]
  have h2 : updateMoveSelection (startMoveSelection st sx sy) (sx + dx) (sy + dy) =
      { pushUndo st with
          selectionMask := some m,
          baseWhileMoving := some (applyWrites (st.frames.getD st.active [])
            ((maskList m).map (fun idx => (idx, 0)))),
          floatingPixels := some ((maskList m).map
            (fun idx => (idx, (st.frames.getD st.active []).getD idx 0))),
          moving := true, moveStart := some (sx, sy), moveDx := dx, moveDy := dy } := by
    rw [h1]
    simp [updateMoveSelection, pushUndo]
  have h3 : endMoveSelection (updateMoveSelection (startMoveSelection st sx sy)
      (sx + dx) (sy + dy)) =
      stopMoving { (replaceActiveFrame
          { pushUndo st with
              selectionMask := some m,
              baseWhileMoving := some (applyWrites (st.frames.getD st.active [])
                ((maskList m).map (fun idx => (idx, 0)))),
              floatingPixels := some ((maskList m).map
                (fun idx => (idx, (st.frames.getD st.active []).getD idx 0))),
              moving := true, moveStart := some (sx, sy), moveDx := dx, moveDy := dy }
          (applyWrites (applyWrites (st.frames.getD st.active [])
              ((maskList m).map (fun idx => (idx, 0))))
            (endMoveWrites st.w st.h dx dy ((maskList m).map
              (fun idx => (idx, (st.frames.getD st.active []).getD idx 0)))))) with
        selectionMask :=
          if ((endMoveWrites st.w st.h dx dy ((maskList m).map
              (fun idx => (idx, (st.frames.getD st.active []).getD idx 0)))).map
                Prod.fst).toFinset.Nonempty
          then some ((endMoveWrites st.w st.h dx dy ((maskList m).map
              (fun idx => (idx, (st.frames.getD st.active []).getD idx 0)))).map
                Prod.fst).toFinset
          else none } := by
    rw [h2]
    rfl
  constructor
  · intro jx jy hjx hjy
    have hj : jy * st.w + jx < st.w * st.h := encode_lt hjx hjy
    have hout : (endMoveSelection (updateMoveSelection (startMoveSelection st sx sy)
        (sx + dx) (sy + dy))).frames.getD st.active [] =
        applyWrites (applyWrites (st.frames.getD st.active [])
            ((maskList m).map (fun idx => (idx, 0))))
          (endMoveWrites st.w st.h dx dy ((maskList m).map
            (fun idx => (idx, (st.frames.getD st.active []).getD idx 0)))) := by
      rw [h3]
      simp only [stopMoving, replaceActiveFrame, pushUndo]
      exact getD_set_self _ _ _ _ hact
    rw [hout]
    by_cases hcond : 0 ≤ (jx : ℤ) - dx ∧ (jx : ℤ) - dx < (st.w : ℤ) ∧
        0 ≤ (jy : ℤ) - dy ∧ (jy : ℤ) - dy < (st.h : ℤ) ∧
        (((jy : ℤ) - dy).toNat * st.w + ((jx : ℤ) - dx).toNat) ∈ m
    · rw [if_pos hcond]
      obtain ⟨hc1, hc2, hc3, hc4, hc5⟩ := hcond
      have hxlt : ((jx : ℤ) - dx).toNat < st.w := by omega
      have hmod : (((jy : ℤ) - dy).toNat * st.w + ((jx : ℤ) - dx).toNat) % st.w =
          ((jx : ℤ) - dx).toNat := encode_mod hxlt
      have hdiv : (((jy : ℤ) - dy).toNat * st.w + ((jx : ℤ) - dx).toNat) / st.w =
          ((jy : ℤ) - dy).toNat := encode_div hxlt
      refine getD_applyWrites_of_mem _ _ _ _ _ (endMoveWrites_targets_nodup ..) ?_ ?_
      · refine mem_endMoveWrites_mask.mpr ⟨_, hc5, rfl, ?_, ?_, ?_, ?_, ?_⟩
        · rw [hmod]; omega
        · rw [hdiv]; omega
        · rw [hmod]; omega
        · rw [hdiv]; omega
        · rw [hmod, hdiv]
          have e1 : ((((jy : ℤ) - dy).toNat : ℤ) + dy).toNat = jy := by omega
          have e2 : ((((jx : ℤ) - dx).toNat : ℤ) + dx).toNat = jx := by omega
          rw [e1, e2]
      · rw [applyWrites_length, hlen]
        exact hj
    · rw [if_neg hcond]
      have hbase : (applyWrites (applyWrites (st.frames.getD st.active [])
          ((maskList m).map (fun idx => (idx, 0))))
            (endMoveWrites st.w st.h dx dy ((maskList m).map
              (fun idx => (idx, (st.frames.getD st.active []).getD idx 0))))).getD
          (jy * st.w + jx) 0 =
          (applyWrites (st.frames.getD st.active [])
            ((maskList m).map (fun idx => (idx, 0)))).getD (jy * st.w + jx) 0 := by
        refine getD_applyWrites_of_notMem _ _ _ _ ?_
        rintro ⟨j', v'⟩ hmem heq
        obtain ⟨i, him, hv, h1', h2', h3', h4', hj'⟩ := mem_endMoveWrites_mask.mp hmem
        dsimp only at heq
        rw [heq] at hj'
        have hw0 : 0 < st.w := by omega
        obtain ⟨A, B, hA, hB, hAlt, hBlt, hABi⟩ :
            ∃ A B, i % st.w = A ∧ i / st.w = B ∧ A < st.w ∧ B < st.h ∧ B * st.w + A = i :=
          ⟨_, _, rfl, rfl, Nat.mod_lt _ hw0, decode_y_lt (hmb i him), decode_encode i st.w⟩
        rw [hA] at h1' h3' hj'
        rw [hB] at h2' h4' hj'
        have hxlt' : (((A : ℤ) + dx).toNat) < st.w := by omega
        obtain ⟨ex, ey⟩ := encode_inj hjx hxlt' hj'
        refine hcond ⟨by omega, by omega, by omega, by omega, ?_⟩
        have e1 : ((jx : ℤ) - dx).toNat = A := by omega
        have e2 : ((jy : ℤ) - dy).toNat = B := by omega
        rw [e1, e2, hABi]
        exact him
      rw [hbase, base_getD _ _ _ (by rw [hlen]; exact hj)]
  · rw [h3]
    simp only [stopMoving]
    rw [endMove_targets_eq]

/-- C3 witness: moving the single-pixel selection `{33}` (cell `(1, 1)`) by
`(1, 1)` on the initial store. -/
theorem C3_move_commit_witness :
    ({ initStore with selectionMask := some {33} } : Store).selectionMask =
      some ({33} : Finset ℕ) ∧
    ({33} : Finset ℕ).Nonempty ∧
    (∀ i ∈ ({33} : Finset ℕ), i < 32 * 32) ∧
    ((endMoveSelection (updateMoveSelection (startMoveSelection
        { initStore with selectionMask := some {33} } 0 0) (0 + 1) (0 + 1))).selectionMask =
      if (translateMask {33} 32 32 1 1).Nonempty
      then some (translateMask {33} 32 32 1 1) else none) :=
  ⟨rfl, by decide, by decide,
    (C3_move_commit { initStore with selectionMask := some {33} } 0 0 1 1 {33}
      rfl (by decide) (by decide) (by decide) (makeFrame_length 32 32 0)).2⟩

/-! Lemmas about copy and paste -/

theorem pasteWrites_eq (w h : ℕ) (atX atY : ℤ) (clip : Clipboard) :
    pasteWrites w h atX atY clip = resizeWrites clip.pixels clip.w clip.h w h atX atY := by
  unfold pasteWrites resizeWrites
  refine List.filterMap_congr (fun p _ => ?_)
  dsimp only
  rw [Int.add_comm atX (p.2 : ℤ), Int.add_comm atY (p.1 : ℤ)]

theorem mask_w_pos {m : Finset ℕ} {w h : ℕ} (hne : m.Nonempty)
    (hmb : ∀ i ∈ m, i < w * h) : 0 < w := by
  rcases Nat.eq_zero_or_pos w with h0 | h0
  · obtain ⟨i0, hi0⟩ := hne
    have := hmb i0 hi0
    rw [h0] at this
    simp at this
  · exact h0

theorem maskMinX_le {m : Finset ℕ} {w : ℕ} (hne : m.Nonempty) :
    ∀ i ∈ m, maskMinX m w hne ≤ i % w :=
  fun _ hi => Finset.min'_le _ _ (Finset.mem_image_of_mem _ hi)

theorem le_maskMaxX {m : Finset ℕ} {w : ℕ} (hne : m.Nonempty) :
    ∀ i ∈ m, i % w ≤ maskMaxX m w hne := fun i hi => by
  unfold maskMaxX
  exact Finset.le_max' (m.image (fun idx => idx % w)) (i % w)
    (Finset.mem_image_of_mem _ hi)

theorem maskMinY_le {m : Finset ℕ} {w : ℕ} (hne : m.Nonempty) :
    ∀ i ∈ m, maskMinY m w hne ≤ i / w :=
  fun _ hi => Finset.min'_le _ _ (Finset.mem_image_of_mem _ hi)

theorem le_maskMaxY {m : Finset ℕ} {w : ℕ} (hne : m.Nonempty) :
    ∀ i ∈ m, i / w ≤ maskMaxY m w hne := fun i hi => by
  unfold maskMaxY
  exact Finset.le_max' (m.image (fun idx => idx / w)) (i / w)
    (Finset.mem_image_of_mem _ hi)

theorem maskMaxX_lt {m : Finset ℕ} {w h : ℕ} (hne : m.Nonempty)
    (hmb : ∀ i ∈ m, i < w * h) : maskMaxX m w hne < w := by
  obtain ⟨z, hz, hz2⟩ := Finset.mem_image.mp
    ((m.image (fun idx => idx % w)).max'_mem (hne.image _))
  rw [maskMaxX, ← hz2]
  exact Nat.mod_lt _ (mask_w_pos hne hmb)

theorem maskMaxY_lt {m : Finset ℕ} {w h : ℕ} (hne : m.Nonempty)
    (hmb : ∀ i ∈ m, i < w * h) : maskMaxY m w hne < h := by
  obtain ⟨z, hz, hz2⟩ := Finset.mem_image.mp
    ((m.image (fun idx => idx / w)).max'_mem (hne.image _))
  rw [maskMaxY, ← hz2]
  exact decode_y_lt (hmb z hz)

theorem copy_pixels_getD (F : Frame) (m : Finset ℕ) (w minX minY cw ch : ℕ)
    (hminX : ∀ i ∈ m, minX ≤ i % w) (hminY : ∀ i ∈ m, minY ≤ i / w)
    (hcwB : ∀ i ∈ m, i % w - minX < cw) (hchB : ∀ i ∈ m, i / w - minY < ch)
    (hxw : ∀ cx, cx < cw → minX + cx < w)
    (cx cy : ℕ) (hcx : cx < cw) (hcy : cy < ch) :
    (applyWrites (makeFrame cw ch 0)
      ((maskList m).map (fun idx =>
        ((idx / w - minY) * cw + (idx % w - minX), F.getD idx 0)))).getD
      (cy * cw + cx) 0 =
    if ((minY + cy) * w + (minX + cx)) ∈ m
    then F.getD ((minY + cy) * w + (minX + cx)) 0 else 0 := by
  have hxltw : minX + cx < w := hxw cx hcx
  have hnodup : (((maskList m).map (fun idx =>
      ((idx / w - minY) * cw + (idx % w - minX), F.getD idx 0))).map Prod.fst).Nodup := by
    rw [List.map_map]
    refine List.Nodup.map_on ?_ (maskList_nodup m)
    intro a ha b hb hab
    rw [mem_maskList] at ha hb
    simp only [Function.comp] at hab
    obtain ⟨h1, h2⟩ := encode_inj (hcwB a ha) (hcwB b hb) hab
    have e1 : a % w = b % w := by
      have := hminX a ha
      have := hminX b hb
      omega
    have e2 : a / w = b / w := by
      have := hminY a ha
      have := hminY b hb
      omega
    rw [← decode_encode a w, ← decode_encode b w, e1, e2]
  by_cases hm : ((minY + cy) * w + (minX + cx)) ∈ m
  · rw [if_pos hm]
    refine getD_applyWrites_of_mem _ _ _ _ _ hnodup ?_
      (by rw [makeFrame_length]; exact encode_lt hcx hcy)
    rw [List.mem_map]
    refine ⟨(minY + cy) * w + (minX + cx), (mem_maskList ..).mpr hm, ?_⟩
    rw [Prod.mk.injEq]
    refine ⟨?_, rfl⟩
    rw [encode_mod hxltw, encode_div hxltw, Nat.add_sub_cancel_left, Nat.add_sub_cancel_left]
  · rw [if_neg hm]
    rw [getD_applyWrites_of_notMem _ _ _ _ ?_, getD_makeFrame _ _ _ _ _ (encode_lt hcx hcy)]
    rintro ⟨j', v'⟩ hmem heq
    rw [List.mem_map] at hmem
    obtain ⟨i, hi, hpair⟩ := hmem
    rw [mem_maskList] at hi
    rw [Prod.mk.injEq] at hpair
    dsimp only at heq
    rw [← hpair.1] at heq
    obtain ⟨e1, e2⟩ := encode_inj (hcwB i hi) hcx heq
    have hai := hminX i hi
    have hbi := hminY i hi
    have hieq : i = (minY + cy) * w + (minX + cx) := by
      rw [← decode_encode i w]
      have ex : i % w = minX + cx := by omega
      have ey : i / w = minY + cy := by omega
      rw [ex, ey]
    exact hm (hieq ▸ hi)

theorem copyClipboard_pixels_getD (F : Frame) (m : Finset ℕ) (w h : ℕ) (hne : m.Nonempty)
    (hmb : ∀ i ∈ m, i < w * h) (cx cy : ℕ)
    (hcx : cx < (copyClipboard F m w hne).w) (hcy : cy < (copyClipboard F m w hne).h) :
    (copyClipboard F m w hne).pixels.getD (cy * (copyClipboard F m w hne).w + cx) 0 =
      if ((maskMinY m w hne + cy) * w + (maskMinX m w hne + cx)) ∈ m
      then F.getD ((maskMinY m w hne + cy) * w + (maskMinX m w hne + cx)) 0 else 0 := by
  have hmx := @maskMaxX_lt m w h hne hmb
  have hmm : maskMinX m w hne ≤ maskMaxX m w hne := by
    obtain ⟨i0, hi0⟩ := id hne
    have h1 := @maskMinX_le m w hne i0 hi0
    have h2 := @le_maskMaxX m w hne i0 hi0
    omega
  refine copy_pixels_getD F m w _ _ _ _ (@maskMinX_le m w hne) (@maskMinY_le m w hne)
    (fun i hi => by
      have h1 := @le_maskMaxX m w hne i hi
      have h2 := @maskMinX_le m w hne i hi
      omega)
    (fun i hi => by
      have h1 := @le_maskMaxY m w hne i hi
      have h2 := @maskMinY_le m w hne i hi
      omega)
    (fun c hc => by omega) cx cy hcx hcy

/-- C6: copying a non-empty selection and pasting the clipboard at the
bounding box top-left on the unchanged frame leaves the active frame
pixel-for-pixel identical: the selected pixels are reproduced exactly and
pixels inside the box but outside the mask are untouched (copy stored them
transparent, and paste writes only non-zero-alpha clipboard pixels). -/
theorem C6_copy_paste (st : Store) (m : Finset ℕ)
    (hmask : st.selectionMask = some m) (hne : m.Nonempty)
    (hmb : ∀ i ∈ m, i < st.w * st.h)
    (hact : st.active < st.frames.length)
    (hlen : (st.frames.getD st.active []).length = st.w * st.h) :
    (pasteClipboard (copySelection st)
        ((maskMinX m st.w hne : ℕ) : ℤ) ((maskMinY m st.w hne : ℕ) : ℤ)).frames.getD
      st.active [] = st.frames.getD st.active [] := by
  have hne' : ¬(m = ∅) := Finset.nonempty_iff_ne_empty.mp hne
  have hmaxX_lt := maskMaxX_lt hne hmb
  have hmaxY_lt := maskMaxY_lt hne hmb
  have hcopy : copySelection st =
      { st with clipboard := some (copyClipboard (st.frames.getD st.active []) m st.w hne) } := by
    simp only [copySelection, hmask]
    rw [dif_neg hne']
    rfl
  have hpaste : (pasteClipboard (copySelection st)
      ((maskMinX m st.w hne : ℕ) : ℤ) ((maskMinY m st.w hne : ℕ) : ℤ)).frames =
      st.frames.set st.active (applyWrites (st.frames.getD st.active [])
        (pasteWrites st.w st.h
          ((maskMinX m st.w hne : ℕ) : ℤ) ((maskMinY m st.w hne : ℕ) : ℤ)
          (copyClipboard (st.frames.getD st.active []) m st.w hne))) := by
    rw [hcopy]
    rfl
  rw [hpaste, getD_set_self _ _ _ _ hact, pasteWrites_eq]
  refine frame_ext (applyWrites_length ..) ?_
  intro j hj
  rw [applyWrites_length, hlen] at hj
  have hjx : j % st.w < st.w := decode_x_lt hj
  have hjy : j / st.w < st.h := decode_y_lt hj
  by_cases hcase : j ∈ m ∧ alphaOf ((st.frames.getD st.active []).getD j 0) ≠ 0
  · obtain ⟨hjm, halpha⟩ := hcase
    have hminx_le := @maskMinX_le m st.w hne j hjm
    have hminy_le := @maskMinY_le m st.w hne j hjm
    have hmaxx_ge := @le_maskMaxX m st.w hne j hjm
    have hmaxy_ge := @le_maskMaxY m st.w hne j hjm
    have hcw : (copyClipboard (st.frames.getD st.active []) m st.w hne).w =
        maskMaxX m st.w hne - maskMinX m st.w hne + 1 := rfl
    have hch : (copyClipboard (st.frames.getD st.active []) m st.w hne).h =
        maskMaxY m st.w hne - maskMinY m st.w hne + 1 := rfl
    have hveq : (copyClipboard (st.frames.getD st.active []) m st.w hne).pixels.getD
        ((j / st.w - maskMinY m st.w hne) *
            (copyClipboard (st.frames.getD st.active []) m st.w hne).w +
          (j % st.w - maskMinX m st.w hne)) 0 =
        (st.frames.getD st.active []).getD j 0 := by
      rw [copyClipboard_pixels_getD (st.frames.getD st.active []) m st.w st.h hne hmb
        _ _ (by rw [hcw]; omega) (by rw [hch]; omega)]
      have e1 : maskMinY m st.w hne + (j / st.w - maskMinY m st.w hne) = j / st.w := by omega
      have e2 : maskMinX m st.w hne + (j % st.w - maskMinX m st.w hne) = j % st.w := by omega
      rw [e1, e2, decode_encode, if_pos hjm]
    have hmem2 : (j, (copyClipboard (st.frames.getD st.active []) m st.w hne).pixels.getD
        ((j / st.w - maskMinY m st.w hne) *
            (copyClipboard (st.frames.getD st.active []) m st.w hne).w +
          (j % st.w - maskMinX m st.w hne)) 0) ∈
        resizeWrites (copyClipboard (st.frames.getD st.active []) m st.w hne).pixels
          (copyClipboard (st.frames.getD st.active []) m st.w hne).w
          (copyClipboard (st.frames.getD st.active []) m st.w hne).h
          st.w st.h ((maskMinX m st.w hne : ℕ) : ℤ) ((maskMinY m st.w hne : ℕ) : ℤ) := by
      rw [mem_resizeWrites]
      refine ⟨j % st.w - maskMinX m st.w hne, j / st.w - maskMinY m st.w hne,
        by rw [hcw]; omega, by rw [hch]; omega, rfl, ?_, by omega, by omega, ?_, ?_, ?_⟩
      · rw [hveq]
        exact halpha
      · have e3 : ((j % st.w - maskMinX m st.w hne : ℕ) : ℤ) +
            ((maskMinX m st.w hne : ℕ) : ℤ) = ((j % st.w : ℕ) : ℤ) := by omega
        rw [e3]
        exact_mod_cast hjx
      · have e4 : ((j / st.w - maskMinY m st.w hne : ℕ) : ℤ) +
            ((maskMinY m st.w hne : ℕ) : ℤ) = ((j / st.w : ℕ) : ℤ) := by omega
        rw [e4]
        exact_mod_cast hjy
      · have e5 : (((j / st.w - maskMinY m st.w hne : ℕ) : ℤ) +
            ((maskMinY m st.w hne : ℕ) : ℤ)).toNat = j / st.w := by omega
        have e6 : (((j % st.w - maskMinX m st.w hne : ℕ) : ℤ) +
            ((maskMinX m st.w hne : ℕ) : ℤ)).toNat = j % st.w := by omega
        rw [e5, e6, decode_encode]
    rw [getD_applyWrites_of_mem _ _ _ _ _ (resizeWrites_targets_nodup ..) hmem2
      (by rw [hlen]; exact hj), hveq]
  · refine getD_applyWrites_of_notMem _ _ _ _ ?_
    rintro ⟨j', v'⟩ hmem heq
    rw [mem_resizeWrites] at hmem
    obtain ⟨x, y, hx, hy, hv, halpha, h0x, h0y, hxw', hyh, hj'⟩ := hmem
    dsimp only at heq
    rw [heq] at hj'
    have hj2 := (decode_encode j st.w).trans hj'
    have hxlt2 : (((x : ℕ) : ℤ) + ((maskMinX m st.w hne : ℕ) : ℤ)).toNat < st.w := by omega
    obtain ⟨ex, ey⟩ := encode_inj hjx hxlt2 hj2
    rw [copyClipboard_pixels_getD (st.frames.getD st.active []) m st.w st.h hne hmb
      x y hx hy] at hv
    have he : (maskMinY m st.w hne + y) * st.w + (maskMinX m st.w hne + x) = j := by
      have e7 : maskMinY m st.w hne + y = j / st.w := by omega
      have e8 : maskMinX m st.w hne + x = j % st.w := by omega
      rw [e7, e8, decode_encode]
    rw [he] at hv
    by_cases hjm : j ∈ m
    · rw [if_pos hjm] at hv
      exact hcase ⟨hjm, by rw [← hv]; exact halpha⟩
    · rw [if_neg hjm] at hv
      rw [hv] at halpha
      exact halpha (by decide)

/-- C6 witness: copy-then-paste of the single-pixel selection `{33}` on the
initial store reproduces the active frame exactly. -/
theorem C6_copy_paste_witness :
    ({ initStore with selectionMask := some {33} } : Store).selectionMask =
      some ({33} : Finset ℕ) ∧
    ({33} : Finset ℕ).Nonempty ∧
    (∀ i ∈ ({33} : Finset ℕ), i < 32 * 32) ∧
    (pasteClipboard (copySelection { initStore with selectionMask := some {33} })
        ((maskMinX {33} 32 (by decide) : ℕ) : ℤ)
        ((maskMinY {33} 32 (by decide) : ℕ) : ℤ)).frames.getD 0 [] =
      ({ initStore with selectionMask := some {33} } : Store).frames.getD 0 [] :=
  ⟨rfl, by decide, by decide,
    C6_copy_paste { initStore with selectionMask := some {33} } {33} rfl (by decide)
      (by decide) (by decide) (makeFrame_length 32 32 0)⟩

/-! Lemmas about flood fill -/

theorem fillLoop_nil (w h oldC newC fuel : ℕ) (out : Frame) :
    fillLoop w h oldC newC fuel out [] = out := by
  cases fuel <;> rfl

theorem fillLoop_cons_succ (w h oldC newC fuel : ℕ) (out : Frame) (x y : ℕ)
    (q : List (ℕ × ℕ)) :
    fillLoop w h oldC newC (fuel + 1) out ((x, y) :: q) =
      if out.getD (y * w + x) 0 ≠ oldC then fillLoop w h oldC newC fuel out q
      else fillLoop w h oldC newC fuel (out.set (y * w + x) (newC % U32))
        (pushNbrs x y w h q) := rfl

theorem mem_pushNbrs_of_mem {x y w h : ℕ} {q : List (ℕ × ℕ)} {e : ℕ × ℕ} (he : e ∈ q) :
    e ∈ pushNbrs x y w h q := by
  unfold pushNbrs
  split_ifs <;> simp_all [List.mem_cons]

theorem pushNbrs_cases {x y w h : ℕ} {q : List (ℕ × ℕ)} {e : ℕ × ℕ}
    (he : e ∈ pushNbrs x y w h q) :
    e ∈ q ∨ (0 < x ∧ e = (x - 1, y)) ∨ (x < w - 1 ∧ e = (x + 1, y)) ∨
      (0 < y ∧ e = (x, y - 1)) ∨ (y < h - 1 ∧ e = (x, y + 1)) := by
  unfold pushNbrs at he
  split_ifs at he <;> simp only [List.mem_cons] at he <;> tauto

theorem pushNbrs_length (x y w h : ℕ) (q : List (ℕ × ℕ)) :
    (pushNbrs x y w h q).length ≤ q.length + 4 := by
  unfold pushNbrs
  split_ifs <;> simp <;> omega

theorem mem_pushNbrs_left {x y w h : ℕ} (q : List (ℕ × ℕ)) (hg : 0 < x) :
    (x - 1, y) ∈ pushNbrs x y w h q := by
  unfold pushNbrs
  split_ifs <;> simp_all [List.mem_cons]

theorem mem_pushNbrs_right {x y w h : ℕ} (q : List (ℕ × ℕ)) (hg : x < w - 1) :
    (x + 1, y) ∈ pushNbrs x y w h q := by
  unfold pushNbrs
  split_ifs <;> simp_all [List.mem_cons]

theorem mem_pushNbrs_up {x y w h : ℕ} (q : List (ℕ × ℕ)) (hg : 0 < y) :
    (x, y - 1) ∈ pushNbrs x y w h q := by
  unfold pushNbrs
  split_ifs <;> simp_all [List.mem_cons]

theorem mem_pushNbrs_down {x y w h : ℕ} (q : List (ℕ × ℕ)) (hg : y < h - 1) :
    (x, y + 1) ∈ pushNbrs x y w h q := by
  unfold pushNbrs
  split_ifs <;> simp_all [List.mem_cons]

theorem step_mem_pushNbrs {F : Frame} {w h oldC : ℕ} {x y : ℕ} {p : ℕ × ℕ}
    (hstep : fillStep F w h oldC (x, y) p) (q : List (ℕ × ℕ)) :
    p ∈ pushNbrs x y w h q := by
  obtain ⟨a, b⟩ := p
  obtain ⟨hadj, hpx, hpy, hpF⟩ := hstep
  dsimp only at hpx hpy
  rcases hadj with ⟨h1, h2⟩ | ⟨h1, h2⟩ | ⟨h1, h2⟩ | ⟨h1, h2⟩ <;> dsimp only at h1 h2
  · have hp : (a, b) = (x + 1, y) := by
      simp only [Prod.mk.injEq]
      omega
    rw [hp]
    exact mem_pushNbrs_right q (by omega)
  · have hp : (a, b) = (x - 1, y) := by
      simp only [Prod.mk.injEq]
      omega
    rw [hp]
    exact mem_pushNbrs_left q (by omega)
  · have hp : (a, b) = (x, y + 1) := by
      simp only [Prod.mk.injEq]
      omega
    rw [hp]
    exact mem_pushNbrs_down q (by omega)
  · have hp : (a, b) = (x, y - 1) := by
      simp only [Prod.mk.injEq]
      omega
    rw [hp]
    exact mem_pushNbrs_up q (by omega)

theorem getD_set_cell_ne {w : ℕ} (out : Frame) {x y x' y' : ℕ} (hx : x < w) (hx' : x' < w)
    (hne : ¬(x = x' ∧ y = y')) (v : ℕ) :
    (out.set (y * w + x) v).getD (y' * w + x') 0 = out.getD (y' * w + x') 0 :=
  getD_set_ne _ _ _ _ _ (fun heq => hne (encode_inj hx hx' heq))

theorem countOld_le (oldC w h : ℕ) (out : Frame) : countOld oldC w h out ≤ w * h := by
  unfold countOld
  calc ((Finset.range (w * h)).filter (fun j => out.getD j 0 = oldC)).card
      ≤ (Finset.range (w * h)).card := Finset.card_filter_le _ _
    _ = w * h := Finset.card_range _

theorem countOld_set (oldC w h : ℕ) (out : Frame) (j newv : ℕ)
    (hj : j < w * h) (hlen : out.length = w * h)
    (hold : out.getD j 0 = oldC) (hne : newv ≠ oldC) :
    countOld oldC w h (out.set j newv) + 1 = countOld oldC w h out := by
  unfold countOld
  have hset : (Finset.range (w * h)).filter (fun k => (out.set j newv).getD k 0 = oldC) =
      ((Finset.range (w * h)).filter (fun k => out.getD k 0 = oldC)).erase j := by
    ext k
    simp only [Finset.mem_filter, Finset.mem_erase, Finset.mem_range]
    constructor
    · rintro ⟨hk, hkv⟩
      by_cases hkj : k = j
      · subst hkj
        rw [getD_set_self _ _ _ _ (by rw [hlen]; exact hj)] at hkv
        exact absurd hkv hne
      · rw [getD_set_ne _ _ _ _ _ (Ne.symm hkj)] at hkv
        exact ⟨hkj, hk, hkv⟩
    · rintro ⟨hkj, hk, hkv⟩
      refine ⟨hk, ?_⟩
      rw [getD_set_ne _ _ _ _ _ (Ne.symm hkj)]
      exact hkv
  have hmem : j ∈ (Finset.range (w * h)).filter (fun k => out.getD k 0 = oldC) := by
    simp only [Finset.mem_filter, Finset.mem_range]
    exact ⟨hj, hold⟩
  rw [hset, Finset.card_erase_of_mem hmem]
  have hpos : 0 < ((Finset.range (w * h)).filter (fun k => out.getD k 0 = oldC)).card :=
    Finset.card_pos.mpr ⟨j, hmem⟩
  omega

theorem fillInv_init (F : Frame) (w h oldC nc : ℕ) (s₀ : ℕ × ℕ)
    (hne : nc ≠ oldC) (hlen : F.length = w * h)
    (hs₀x : s₀.1 < w) (hs₀y : s₀.2 < h) (hs₀c : F.getD (s₀.2 * w + s₀.1) 0 = oldC) :
    FillInv F w h oldC nc s₀ F [s₀] := by
  refine ⟨hlen, fun x hx y hy hF => rfl, fun x hx y hy hF => Or.inl hF,
    Or.inr (List.mem_cons_self ..), ?_, ?_⟩
  · intro x hx y hy hF hnc p hstep
    exact absurd (hF.symm.trans hnc) (Ne.symm hne)
  · intro e he
    rw [List.mem_singleton] at he
    subst he
    exact ⟨hs₀x, hs₀y, fun _ => Relation.ReflTransGen.refl⟩

theorem fillInv_skip (F : Frame) (w h oldC nc : ℕ) (s₀ : ℕ × ℕ) (out : Frame)
    (x y : ℕ) (q : List (ℕ × ℕ))
    (hs₀x : s₀.1 < w) (hs₀y : s₀.2 < h) (hs₀c : F.getD (s₀.2 * w + s₀.1) 0 = oldC)
    (inv : FillInv F w h oldC nc s₀ out ((x, y) :: q))
    (hskip : out.getD (y * w + x) 0 ≠ oldC) :
    FillInv F w h oldC nc s₀ out q := by
  refine ⟨inv.len, inv.keep, inv.sound, ?_, ?_, fun e he => inv.inq e (List.mem_cons_of_mem _ he)⟩
  · rcases inv.start with h1 | h1
    · exact Or.inl h1
    · rcases List.mem_cons.mp h1 with h2 | h2
      · rcases inv.sound s₀.1 hs₀x s₀.2 hs₀y hs₀c with h3 | h3
        · rw [h2] at h3
          exact absurd h3 hskip
        · exact Or.inl h3.1
      · exact Or.inr h2
  · intro a ha b hb hF hnc p hstep
    rcases inv.frontier a ha b hb hF hnc p hstep with h1 | h1
    · exact Or.inl h1
    · rcases List.mem_cons.mp h1 with h2 | h2
      · obtain ⟨hadj, hpx, hpy, hpF⟩ := hstep
        rcases inv.sound p.1 hpx p.2 hpy hpF with h3 | h3
        · rw [h2] at h3
          exact absurd h3 hskip
        · exact Or.inl h3.1
      · exact Or.inr h2

theorem fillInv_convert (F : Frame) (w h oldC nc : ℕ) (s₀ : ℕ × ℕ) (out : Frame)
    (x y : ℕ) (q : List (ℕ × ℕ))
    (hne : nc ≠ oldC) (hs₀x : s₀.1 < w)
    (inv : FillInv F w h oldC nc s₀ out ((x, y) :: q))
    (hold : out.getD (y * w + x) 0 = oldC) :
    FillInv F w h oldC nc s₀ (out.set (y * w + x) nc) (pushNbrs x y w h q) := by
  obtain ⟨hxw, hyh, hcompF⟩ := inv.inq (x, y) (List.mem_cons_self ..)
  have hF : F.getD (y * w + x) 0 = oldC := by
    by_contra hFne
    rw [inv.keep x hxw y hyh hFne] at hold
    exact hFne hold
  have hcomp : fillComp F w h oldC s₀ (x, y) := hcompF hF
  have hcell : (out.set (y * w + x) nc).getD (y * w + x) 0 = nc :=
    getD_set_self _ _ _ _ (by rw [inv.len]; exact encode_lt hxw hyh)
  refine ⟨by rw [List.length_set]; exact inv.len, ?_, ?_, ?_, ?_, ?_⟩
  · intro a ha b hb hFne
    by_cases hab : x = a ∧ y = b
    · rw [← hab.1, ← hab.2] at hFne
      exact absurd hF hFne
    · rw [getD_set_cell_ne out hxw ha hab]
      exact inv.keep a ha b hb hFne
  · intro a ha b hb hFa
    by_cases hab : x = a ∧ y = b
    · rw [← hab.1, ← hab.2]
      exact Or.inr ⟨hcell, hcomp⟩
    · rw [getD_set_cell_ne out hxw ha hab]
      exact inv.sound a ha b hb hFa
  · by_cases hs : s₀ = (x, y)
    · refine Or.inl ?_
      rw [hs]
      exact hcell
    · have hs' : ¬(x = s₀.1 ∧ y = s₀.2) := by
        intro hh
        refine hs ?_
        obtain ⟨a, b⟩ := s₀
        simp only [Prod.mk.injEq]
        exact ⟨hh.1.symm, hh.2.symm⟩
      rcases inv.start with h1 | h1
      · rw [getD_set_cell_ne out hxw hs₀x hs']
        exact Or.inl h1
      · rcases List.mem_cons.mp h1 with h2 | h2
        · exact absurd h2 hs
        · exact Or.inr (mem_pushNbrs_of_mem h2)
  · intro a ha b hb hFa hnca p hstep
    by_cases hab : x = a ∧ y = b
    · refine Or.inr ?_
      have hstep' : fillStep F w h oldC (x, y) p := by
        rw [hab.1, hab.2]
        exact hstep
      exact step_mem_pushNbrs hstep' q
    · rw [getD_set_cell_ne out hxw ha hab] at hnca
      obtain ⟨hadj, hpx, hpy, hpF⟩ := hstep
      rcases inv.frontier a ha b hb hFa hnca p ⟨hadj, hpx, hpy, hpF⟩ with h1 | h1
      · by_cases hpxy : x = p.1 ∧ y = p.2
        · refine Or.inl ?_
          have : p.2 * w + p.1 = y * w + x := by rw [hpxy.1, hpxy.2]
          rw [this]
          exact hcell
        · rw [getD_set_cell_ne out hxw hpx hpxy]
          exact Or.inl h1
      · rcases List.mem_cons.mp h1 with h2 | h2
        · refine Or.inl ?_
          have : p.2 * w + p.1 = y * w + x := by rw [h2]
          rw [this]
          exact hcell
        · exact Or.inr (mem_pushNbrs_of_mem h2)
  · intro e he
    rcases pushNbrs_cases he with h1 | h1 | h1 | h1 | h1
    · exact inv.inq e (List.mem_cons_of_mem _ h1)
    · obtain ⟨hx0, rfl⟩ := h1
      refine ⟨by omega, hyh, fun hFe => ?_⟩
      refine Relation.ReflTransGen.tail hcomp ?_
      exact ⟨Or.inr (Or.inl ⟨by omega, rfl⟩), by omega, hyh, hFe⟩
    · obtain ⟨hx1, rfl⟩ := h1
      refine ⟨by omega, hyh, fun hFe => ?_⟩
      refine Relation.ReflTransGen.tail hcomp ?_
      exact ⟨Or.inl ⟨rfl, rfl⟩, by omega, hyh, hFe⟩
    · obtain ⟨hy0, rfl⟩ := h1
      refine ⟨hxw, by omega, fun hFe => ?_⟩
      refine Relation.ReflTransGen.tail hcomp ?_
      exact ⟨Or.inr (Or.inr (Or.inr ⟨by omega, rfl⟩)), hxw, by omega, hFe⟩
    · obtain ⟨hy1, rfl⟩ := h1
      refine ⟨hxw, by omega, fun hFe => ?_⟩
      refine Relation.ReflTransGen.tail hcomp ?_
      exact ⟨Or.inr (Or.inr (Or.inl ⟨rfl, rfl⟩)), hxw, by omega, hFe⟩

theorem fillInv_terminal (F : Frame) (w h oldC nc : ℕ) (s₀ : ℕ × ℕ) (out : Frame)
    (hs₀x : s₀.1 < w) (hs₀y : s₀.2 < h) (hs₀c : F.getD (s₀.2 * w + s₀.1) 0 = oldC)
    (inv : FillInv F w h oldC nc s₀ out []) :
    ∀ x, x < w → ∀ y, y < h →
      (fillComp F w h oldC s₀ (x, y) → out.getD (y * w + x) 0 = nc) ∧
      (¬ fillComp F w h oldC s₀ (x, y) →
        out.getD (y * w + x) 0 = F.getD (y * w + x) 0) := by
  have hstart : out.getD (s₀.2 * w + s₀.1) 0 = nc := by
    rcases inv.start with h1 | h1
    · exact h1
    · exact absurd h1 (List.not_mem_nil _)
  have hcomplete : ∀ p, fillComp F w h oldC s₀ p →
      out.getD (p.2 * w + p.1) 0 = nc ∧ p.1 < w ∧ p.2 < h ∧
        F.getD (p.2 * w + p.1) 0 = oldC := by
    intro p hp
    unfold fillComp at hp
    induction hp with
    | refl => exact ⟨hstart, hs₀x, hs₀y, hs₀c⟩
    | tail hab hbc ih =>
        obtain ⟨hb, hbx, hby, hbF⟩ := ih
        obtain ⟨hadj, hcx, hcy, hcF⟩ := hbc
        rcases inv.frontier _ hbx _ hby hbF hb _ ⟨hadj, hcx, hcy, hcF⟩ with h2 | h2
        · exact ⟨h2, hcx, hcy, hcF⟩
        · exact absurd h2 (List.not_mem_nil _)
  intro x hx y hy
  constructor
  · intro hcomp
    exact (hcomplete (x, y) hcomp).1
  · intro hncomp
    by_cases hF : F.getD (y * w + x) 0 = oldC
    · rcases inv.sound x hx y hy hF with h1 | h1
      · rw [h1, hF]
      · exact absurd h1.2 hncomp
    · exact inv.keep x hx y hy hF

theorem fillLoop_post (F : Frame) (w h oldC newC : ℕ) (s₀ : ℕ × ℕ)
    (hne : newC % U32 ≠ oldC)
    (hs₀x : s₀.1 < w) (hs₀y : s₀.2 < h) (hs₀c : F.getD (s₀.2 * w + s₀.1) 0 = oldC) :
    ∀ fuel out q, FillInv F w h oldC (newC % U32) s₀ out q →
      5 * countOld oldC w h out + q.length ≤ fuel →
      ∀ x, x < w → ∀ y, y < h →
        (fillComp F w h oldC s₀ (x, y) →
          (fillLoop w h oldC newC fuel out q).getD (y * w + x) 0 = newC % U32) ∧
        (¬ fillComp F w h oldC s₀ (x, y) →
          (fillLoop w h oldC newC fuel out q).getD (y * w + x) 0 =
            F.getD (y * w + x) 0) := by
  intro fuel
  induction fuel with
  | zero =>
      intro out q inv hbound
      cases q with
      | nil =>
          rw [fillLoop_nil]
          exact fillInv_terminal F w h oldC (newC % U32) s₀ out hs₀x hs₀y hs₀c inv
      | cons e q' =>
          rw [List.length_cons] at hbound
          omega
  | succ f ih =>
      intro out q inv hbound
      cases q with
      | nil =>
          rw [fillLoop_nil]
          exact fillInv_terminal F w h oldC (newC % U32) s₀ out hs₀x hs₀y hs₀c inv
      | cons e q' =>
          obtain ⟨x, y⟩ := e
          rw [fillLoop_cons_succ]
          rw [List.length_cons] at hbound
          by_cases hcond : out.getD (y * w + x) 0 = oldC
          · rw [if_neg (not_not_intro hcond)]
            obtain ⟨hxw, hyh, _⟩ := inv.inq (x, y) (List.mem_cons_self ..)
            have hcount := countOld_set oldC w h out (y * w + x) (newC % U32)
              (encode_lt hxw hyh) inv.len hcond hne
            have hplen := pushNbrs_length x y w h q'
            refine ih _ _ (fillInv_convert F w h oldC (newC % U32) s₀ out x y q'
              hne hs₀x inv hcond) ?_
            omega
          · rw [if_pos hcond]
            refine ih _ _ (fillInv_skip F w h oldC (newC % U32) s₀ out x y q'
              hs₀x hs₀y hs₀c inv hcond) ?_
            omega

/-- C4: flood fill is a no-op when the start point is out of bounds or the
start pixel already equals the fill color; otherwise it recolors exactly the
4-connected component of the start cell among cells holding the captured
start color, leaving every cell outside that component unchanged. -/
theorem C4_floodFill (frame : Frame) (w h : ℕ) (x0 y0 : ℤ) (newColor : ℕ)
    (hlen : frame.length = w * h) (hc : newColor < U32) :
    ((x0 < 0 ∨ y0 < 0 ∨ (w : ℤ) ≤ x0 ∨ (h : ℤ) ≤ y0) →
      floodFill x0 y0 frame w h newColor = frame) ∧
    (0 ≤ x0 → x0 < (w : ℤ) → 0 ≤ y0 → y0 < (h : ℤ) →
      frame.getD (y0.toNat * w + x0.toNat) 0 = newColor →
      floodFill x0 y0 frame w h newColor = frame) ∧
    (0 ≤ x0 → x0 < (w : ℤ) → 0 ≤ y0 → y0 < (h : ℤ) →
      frame.getD (y0.toNat * w + x0.toNat) 0 ≠ newColor →
      ∀ x, x < w → ∀ y, y < h →
        (fillComp frame w h (frame.getD (y0.toNat * w + x0.toNat) 0)
            (x0.toNat, y0.toNat) (x, y) →
          (floodFill x0 y0 frame w h newColor).getD (y * w + x) 0 = newColor) ∧
        (¬ fillComp frame w h (frame.getD (y0.toNat * w + x0.toNat) 0)
            (x0.toNat, y0.toNat) (x, y) →
          (floodFill x0 y0 frame w h newColor).getD (y * w + x) 0 =
            frame.getD (y * w + x) 0)) := by
  have hmod : newColor % U32 = newColor := Nat.mod_eq_of_lt hc
  refine ⟨fun hoob => ?_, fun h1 h2 h3 h4 heq => ?_, fun h1 h2 h3 h4 hneq => ?_⟩
  · rw [floodFill, if_pos hoob]
  · rw [floodFill, if_neg (by omega)]
    dsimp only
    rw [if_pos heq]
  · rw [floodFill, if_neg (by omega)]
    dsimp only
    rw [if_neg hneq]
    intro x hx y hy
    have hnewne : newColor % U32 ≠ frame.getD (y0.toNat * w + x0.toNat) 0 := by
      rw [hmod]
      exact fun hh => hneq hh.symm
    have hs₀x : (x0.toNat, y0.toNat).1 < w := by simp only; omega
    have hs₀y : (x0.toNat, y0.toNat).2 < h := by simp only; omega
    have hs₀c : frame.getD ((x0.toNat, y0.toNat).2 * w + (x0.toNat, y0.toNat).1) 0 =
        frame.getD (y0.toNat * w + x0.toNat) 0 := rfl
    have hpost := fillLoop_post frame w h (frame.getD (y0.toNat * w + x0.toNat) 0)
      newColor (x0.toNat, y0.toNat) hnewne hs₀x hs₀y hs₀c
      (5 * (w * h) + 2) frame [(x0.toNat, y0.toNat)]
      (fillInv_init frame w h _ _ _ hnewne hlen hs₀x hs₀y hs₀c)
      (by
        have := countOld_le (frame.getD (y0.toNat * w + x0.toNat) 0) w h frame
        simp only [List.length_cons, List.length_nil]
        omega)
      x hx y hy
    rw [hmod] at hpost
    exact hpost

theorem C4_floodFill_witness :
    ([0, 7, 0, 0] : Frame).length = 2 * 2 ∧ (5 : ℕ) < U32 ∧
      (floodFill 0 0 [0, 7, 0, 0] 2 2 5).getD (1 * 2 + 0) 0 = 5 :=
  ⟨by decide, by decide,
    ((C4_floodFill [0, 7, 0, 0] 2 2 0 0 5 (by decide) (by decide)).2.2
      (by decide) (by decide) (by decide) (by decide) (by decide)
      0 (by decide) 1 (by decide)).1
      (Relation.ReflTransGen.tail Relation.ReflTransGen.refl
        ⟨Or.inr (Or.inr (Or.inl ⟨rfl, rfl⟩)), by decide, by decide, by decide⟩)⟩

end SpritePx
